import Mathlib

/-!
Verification of the open-addressing hash-table kernel in `linear.hpp`
(`linear::detail::kernel`): a linear-probing slot store with power-of-two
capacity, load-factor driven resizing, and backward-shift deletion.

The embedding is shallow: the bucket array becomes a `List (Option V)`
(`none` = unoccupied cell, `some v` = a live entry), `size_t` arithmetic
that can wrap (in `upper_power_of_two`) is modelled with explicit `% 2^64`,
and the unbounded probing loops of the source become fueled recursions.
Every top-level call site passes enough fuel that, on the states the
theorems quantify over, the fueled model takes exactly the steps the C++
loops take; fuel exhaustion only stands in for the infinite loops the C++
would exhibit on states those theorems exclude.

The hash, key-extraction and key-equality functors of the template are
modelled by explicit parameters `hash : K → Nat`, `extract : V → K` and
decidable equality on `K`.
-/

namespace Linear

/-! ## Circular-index arithmetic

The kernel addresses its bucket vector modulo the capacity; `cd N a b` is
the number of forward probe steps from slot `a` to slot `b` in a table of
`N` slots (the circular distance). -/

/-- Forward circular distance from `a` to `b` modulo `N`. -/
def cd (N a b : Nat) : Nat := (b + N - a) % N

/-! ## The 64-bit round-up-to-power-of-two helper

`kernel::upper_power_of_two` (lines 516-529) decrements, smears the high
bit across all lower positions with an or-shift cascade, and increments.
It operates on `size_t`; the decrement of `0` and the final increment can
wrap, which the model captures with explicit `% 2^64`. -/

/-- One step of the or-shift cascade: `x |= x >> w`. -/
def orShift (w x : Nat) : Nat := x ||| (x >>> w)

/-- Embedding of `kernel::upper_power_of_two` (lines 516-529). `--x` and
`++x` on a 64-bit `size_t` are modelled with explicit `% 2^64`. -/
def upper_power_of_two (x : Nat) : Nat :=
  (orShift 32 (orShift 16 (orShift 8 (orShift 4 (orShift 2 (orShift 1
    ((x + (2 ^ 64 - 1)) % 2 ^ 64)))))) + 1) % 2 ^ 64

/-- Bit `i` of the cascade value is set iff `m` has a set bit in the
window `[i, i+w)`. -/
def SmearBits (m w x : Nat) : Prop :=
  ∀ i, x.testBit i = true ↔ ∃ j, i ≤ j ∧ j < i + w ∧ m.testBit j = true

/-! ## The kernel state

`linear::detail::kernel` keeps a bucket vector of raw cells, each with an
occupancy flag (`bucket_type`, lines 392-407), together with the cached
bucket count, live-entry count and the low/high water marks derived from
the load factors. A cell is modelled as `Option V`: `none` when
`has_value` is false (the raw bit pattern is then never interpreted as an
entry), `some v` when it holds the live entry `v`. The default load
factors 0.3f/0.7f are fixed as in the default constructor; for the
power-of-two bucket counts the kernel maintains, `size_t(bc * 0.3f)` and
`size_t(bc * 0.7f)` coincide with `3*bc/10` and `7*bc/10` (the fractional
parts of `3*2^k/10` and `7*2^k/10` stay at least 0.2 away from the float
rounding error), which is how the marks are modelled. -/

structure kernel (V : Type) where
  buckets : List (Option V)
  bucket_count : Nat
  size : Nat
  min_size : Nat
  max_size : Nat

/-- Contents of cell `i` (out-of-range access yields `none`; in the C++ it
would be undefined behaviour, which no verified execution path reaches). -/
def slot {V : Type} (s : kernel V) (i : Nat) : Option V :=
  s.buckets.getD i none

/-- Embedding of `kernel::index_from_key` (lines 537-541):
`hash_(key) & (bucket_count_ - 1)`. -/
def index_from_key {K : Type} (hash : K → Nat) {V : Type} (s : kernel V)
    (k : K) : Nat :=
  hash k &&& (s.bucket_count - 1)

/-- Embedding of `kernel::index_from_value` (lines 533-535). -/
def index_from_value {V K : Type} (hash : K → Nat) (extract : V → K)
    (s : kernel V) (v : V) : Nat :=
  index_from_key hash s (extract v)

/-- Embedding of `kernel::index_add` (lines 543-547):
`(index + x) & (bucket_count_ - 1)`. -/
def index_add {V : Type} (s : kernel V) (i x : Nat) : Nat :=
  (i + x) &&& (s.bucket_count - 1)

/-- The probe loop shared by `kernel::find(key, virtual_index)`
(lines 637-651) and the first loop of `kernel::erase` (lines 213-227):
walk forward from `virtual_index` while cells are occupied, stop with the
index of the first entry whose extracted key equals `key`, or with `none`
at the first empty cell. The C++ loops are unbounded; the fuel is always
instantiated with `bucket_count`, which bounds the number of iterations
the loops perform whenever the table has at least one empty cell. -/
def scan {V K : Type} (extract : V → K) [DecidableEq K] :
    Nat → kernel V → K → Nat → Option Nat
  | 0, _, _, _ => none
  | fuel + 1, s, k, i =>
    match slot s i with
    | none => none
    | some v =>
      if extract v = k then some i else scan extract fuel s k (index_add s i 1)

/-- Embedding of the private `kernel::find(key, virtual_index)`
(lines 637-651): the probe loop, returning `bucket_count_` when it stops
at an empty cell. -/
def find_impl {V K : Type} (hash : K → Nat) (extract : V → K) [DecidableEq K]
    (s : kernel V) (k : K) (i : Nat) : Nat :=
  (scan extract s.bucket_count s k i).getD s.bucket_count

/-- Embedding of the public `kernel::find(key)` (lines 293-299), reduced to
the slot index carried by the returned iterator. -/
def find {V K : Type} (hash : K → Nat) (extract : V → K) [DecidableEq K]
    (s : kernel V) (k : K) : Nat :=
  find_impl hash extract s k (index_from_key hash s k)

/-- The free-cell search of the private `kernel::insert(value, virtual_index)`
(lines 617-622): walk forward from `virtual_index` while cells are occupied.
Fuel as in `scan`. -/
def place_loop {V : Type} : Nat → kernel V → Nat → Nat
  | 0, s, _ => s.bucket_count
  | fuel + 1, s, i =>
    if (slot s i).isSome then place_loop fuel s (index_add s i 1) else i

/-- The placement half of the private `kernel::insert(value, virtual_index)`
(lines 616-632): construct the entry in the first free cell at or after
`virtual_index`, mark it occupied and bump `size_`. -/
def place {V : Type} (s : kernel V) (v : V) (idx : Nat) : kernel V × Nat :=
  let p := place_loop s.bucket_count s idx
  ({ s with buckets := s.buckets.set p (some v), size := s.size + 1 }, p)

/-- The sweep of `kernel::rehash` (lines 356-367), parametrized by the
insertion routine it calls back into: re-place every occupied cell of the
old vector in order, and abort the sweep (`break`) as soon as the bucket
count no longer equals the requested `count` — the (faulty) recursive-rehash
detection heuristic. -/
def sweep_with {V : Type} (ins : kernel V → V → kernel V) (count : Nat) :
    kernel V → List (Option V) → kernel V
  | s, [] => s
  | s, none :: rest => sweep_with ins count s rest
  | s, some v :: rest =>
    let s' := ins s v
    if s'.bucket_count ≠ count then s' else sweep_with ins count s' rest

/-- Body of `kernel::rehash(count)` (lines 343-368), parametrized by the
insertion routine: round `count` up to a power of two, install a fresh
bucket vector of that length with recomputed water marks and `size_ = 0`,
then sweep the old vector back in. -/
def rehash_with {V : Type} (ins : kernel V → V → kernel V) (s : kernel V)
    (count : Nat) : kernel V :=
  sweep_with ins count
    { buckets := List.replicate (upper_power_of_two count) none,
      bucket_count := upper_power_of_two count,
      size := 0,
      min_size := 3 * upper_power_of_two count / 10,
      max_size := 7 * upper_power_of_two count / 10 }
    s.buckets

/-- Embedding of the private `kernel::insert(value, virtual_index)`
(lines 608-633): when `size_ == max_size_`, rehash to twice the bucket
count and retry at the recomputed ideal index; otherwise place the value.
The fuel bounds the recursion depth (the C++ recursion is unbounded); on
well-formed states one growth step always suffices. -/
def insert_impl {V K : Type} (hash : K → Nat) (extract : V → K) :
    Nat → kernel V → V → Nat → kernel V × Nat
  | 0, s, _, _ => (s, s.bucket_count)
  | fuel + 1, s, v, idx =>
    if s.size = s.max_size then
      let s' := rehash_with
        (fun t w => (insert_impl hash extract fuel t w
          (index_from_value hash extract t w)).1)
        s (2 * s.bucket_count)
      insert_impl hash extract fuel s' v (index_from_value hash extract s' v)
    else place s v idx

/-- Embedding of `kernel::rehash(count)` (lines 343-368); the sweep
re-inserts through `insert_impl` at one fuel less, mirroring the C++
recursion `rehash → insert → rehash → ...`. -/
def rehash {V K : Type} (hash : K → Nat) (extract : V → K) :
    Nat → kernel V → Nat → kernel V
  | 0, s, _ => s
  | fuel + 1, s, count =>
    rehash_with
      (fun t w => (insert_impl hash extract fuel t w
        (index_from_value hash extract t w)).1)
      s count

/-- Embedding of `kernel::reserve(count)` (lines 370-373):
`rehash(ceil(count / max_load_factor()))` with the default
`max_load_ = 0.7f`; the real ceiling `⌈10·count/7⌉` is used (for the
argument values exercised here the float computation yields the same
integer). -/
def reserve {V K : Type} (hash : K → Nat) (extract : V → K) (s : kernel V)
    (n : Nat) : kernel V :=
  rehash hash extract (s.bucket_count + 3) s ((10 * n + 6) / 7)

/-- Embedding of the public `kernel::insert(value)` (lines 583-594): probe
for the key first; if the probe returned `buckets_.size()` (not found),
run the private insert and report `true`, otherwise return the existing
position and `false`. -/
def insert {V K : Type} (hash : K → Nat) (extract : V → K) [DecidableEq K]
    (s : kernel V) (v : V) : kernel V × Nat × Bool :=
  let idx := index_from_value hash extract s v
  let res := find_impl hash extract s (extract v) idx
  if res = s.buckets.length then
    let r := insert_impl hash extract (s.bucket_count + 3) s v idx
    (r.1, r.2, true)
  else
    (s, res, false)

/-- The backward-shift move condition of `kernel::erase` (lines 233-236),
with `g` the current gap (`erased_index`), `i` the scan index (`index`)
and `h` the ideal index (`hash`) of the entry at `i`:
`(erased_index < index && (hash <= erased_index || hash > index)) ||
(erased_index > index && (hash <= erased_index && hash > index))`. -/
def move_cond (g i h : Nat) : Prop :=
  (g < i ∧ (h ≤ g ∨ i < h)) ∨ (i < g ∧ h ≤ g ∧ i < h)

instance move_cond_dec (g i h : Nat) : Decidable (move_cond g i h) := by
  unfold move_cond
  infer_instance

/-- The repair pass of `kernel::erase` (lines 229-249): scan forward from
the slot after the erased one; move each encountered entry back into the
gap when `move_cond` holds (re-seating the gap at the vacated slot), and
stop at the first empty cell. Fuel as in `scan`. -/
def repair_loop {V K : Type} (hash : K → Nat) (extract : V → K) :
    Nat → kernel V → Nat → Nat → kernel V
  | 0, s, _, _ => s
  | fuel + 1, s, g, i =>
    match slot s i with
    | none => s
    | some v =>
      if move_cond g i (index_from_value hash extract s v) then
        let s' : kernel V :=
          { s with buckets := (s.buckets.set g (some v)).set i none }
        repair_loop hash extract fuel s' i (index_add s' i 1)
      else
        repair_loop hash extract fuel s g (index_add s i 1)

/-- Embedding of `kernel::erase(key)` (lines 207-257): probe for the key
(the first loop — the same probe loop as `find`); on a match destroy the
entry, mark the cell empty, decrement `size_`, and run the repair pass
from the next slot; finally shrink-rehash to half the bucket count when
`size_ < min_size_ && size_ > 16` — the C++ performs this check on every
path out of `erase`, matched or not. Returns the updated state and the
erased count (0 or 1). -/
def erase {V K : Type} (hash : K → Nat) (extract : V → K) [DecidableEq K]
    (s : kernel V) (k : K) : kernel V × Nat :=
  match scan extract s.bucket_count s k (index_from_key hash s k) with
  | none =>
    if s.size < s.min_size ∧ 16 < s.size then
      (rehash hash extract (s.bucket_count + 3) s (s.bucket_count / 2), 0)
    else
      (s, 0)
  | some g =>
    let s1 : kernel V :=
      { s with buckets := s.buckets.set g none, size := s.size - 1 }
    let s2 := repair_loop hash extract s1.bucket_count s1 g (index_add s1 g 1)
    if s2.size < s2.min_size ∧ 16 < s2.size then
      (rehash hash extract (s2.bucket_count + 3) s2 (s2.bucket_count / 2), 1)
    else
      (s2, 1)

/-- Embedding of the default constructor `kernel(bucket_count = 16, ...)`
(lines 62-85): round the requested bucket count up to a power of two,
compute the water marks, and allocate that many empty cells. -/
def init (V : Type) (n : Nat) : kernel V :=
  { buckets := List.replicate (upper_power_of_two n) none,
    bucket_count := upper_power_of_two n,
    size := 0,
    min_size := 3 * upper_power_of_two n / 10,
    max_size := 7 * upper_power_of_two n / 10 }

/-- Embedding of `kernel::clear` (lines 194-203). The C++ loop invokes the
entry destructor on every cell `0 ≤ index < bucket_count_` regardless of
its `has_value` flag, then empties the bucket vector (`buckets_.clear()`)
and zeroes `size_`, leaving `bucket_count_` untouched. The state after the
call keeps `bucket_count` but has an empty cell list. -/
def clear {V : Type} (s : kernel V) : kernel V :=
  { s with buckets := [], size := 0 }

/-- The cell indices on which `kernel::clear` invokes
`bucket.memory()->~value_type()`: every index below `bucket_count_`,
occupied or not (lines 196-200). -/
def clear_destroyed {V : Type} (s : kernel V) : List Nat :=
  List.range s.bucket_count

/-- Modelled from the spec: the source `kernel::count` (lines 261-277) is
ill-formed (it reassigns the `const` local `virtual_index`, tests a
`bucket_type` in boolean context without a conversion, and ends with
`return count;`, naming the member function); §4.6 of the specification
records the intended contract, "1 if `locate` succeeds, else 0", which
this definition embeds using the same probe loop as `find`. -/
def count {V K : Type} (hash : K → Nat) (extract : V → K) [DecidableEq K]
    (s : kernel V) (k : K) : Nat :=
  match scan extract s.bucket_count s k (index_from_key hash s k) with
  | some _ => 1
  | none => 0

/-- Embedding of `kernel::operator[]` (lines 281-289): it evaluates
`mapped_extract_(*(buckets_[find(key, index_from_key(key))].memory()))`,
performing no write to the container. The model returns the unchanged
state paired with the index of the cell the expression reads. -/
def op_index {V K : Type} (hash : K → Nat) (extract : V → K) [DecidableEq K]
    (s : kernel V) (k : K) : kernel V × Nat :=
  (s, find_impl hash extract s k (index_from_key hash s k))

/-! ## Invariants

`WF` collects the representation invariants the kernel maintains on the
states reachable through its public interface: consistent vector length
and cached bucket count, power-of-two bucket count, `size_` equal to the
number of occupied cells, water marks matching the default load factors,
size at most the high-water mark, the linear-probing run invariant, and
key uniqueness. -/

/-- Number of occupied cells. -/
def occ_count {V : Type} (s : kernel V) : Nat :=
  s.buckets.countP (fun o => o.isSome)

/-- Cell predicate: holds a live entry whose key view equals `k`. -/
def key_pred {V K : Type} (extract : V → K) [DecidableEq K] (k : K) :
    Option V → Bool
  | some v => decide (extract v = k)
  | none => false

/-- Number of live entries whose key view equals `k`. -/
def key_count {V K : Type} (extract : V → K) [DecidableEq K]
    (s : kernel V) (k : K) : Nat :=
  s.buckets.countP (key_pred extract k)

/-- Boolean presence of a key among the live entries. -/
def contains_key {V K : Type} (extract : V → K) [DecidableEq K]
    (s : kernel V) (k : K) : Bool :=
  s.buckets.any (key_pred extract k)

/-- The probe-run invariant: every live entry is reachable from its ideal
index by walking forward through occupied cells only. -/
def ProbeInv {V K : Type} (hash : K → Nat) (extract : V → K)
    (s : kernel V) : Prop :=
  ∀ i v, slot s i = some v →
    ∀ t, t < cd s.bucket_count (index_from_value hash extract s v) i →
      (slot s ((index_from_value hash extract s v + t) % s.bucket_count)).isSome = true

/-- Representation invariant of reachable kernel states. -/
structure WF {V K : Type} (hash : K → Nat) (extract : V → K) [DecidableEq K]
    (s : kernel V) : Prop where
  len : s.buckets.length = s.bucket_count
  pow : ∃ j, j ≤ 63 ∧ s.bucket_count = 2 ^ j
  size_occ : s.size = occ_count s
  min_eq : s.min_size = 3 * s.bucket_count / 10
  max_eq : s.max_size = 7 * s.bucket_count / 10
  size_le : s.size ≤ s.max_size
  probe : ProbeInv hash extract s
  uniq : ∀ k, key_count extract s k ≤ 1

/-- Executable well-formedness check, used to certify the concrete states
that instantiate the theorems. -/
def checkWF {V K : Type} (hash : K → Nat) (extract : V → K) [DecidableEq K]
    (s : kernel V) : Bool :=
  (s.buckets.length == s.bucket_count) &&
  ((List.range 64).any (fun j => s.bucket_count == 2 ^ j)) &&
  (s.size == occ_count s) &&
  (s.min_size == 3 * s.bucket_count / 10) &&
  (s.max_size == 7 * s.bucket_count / 10) &&
  (decide (s.size ≤ s.max_size)) &&
  ((List.range s.bucket_count).all (fun i =>
    match slot s i with
    | none => true
    | some v =>
      (List.range (cd s.bucket_count (index_from_value hash extract s v) i)).all
        (fun t =>
          (slot s ((index_from_value hash extract s v + t) % s.bucket_count)).isSome))) &&
  ((List.range s.bucket_count).all (fun i =>
    (List.range s.bucket_count).all (fun j =>
      match slot s i, slot s j with
      | some vi, some vj => !(decide (extract vi = extract vj)) || (i == j)
      | _, _ => true)))

/-- Mod-form of the probe-run invariant, relative to an externally fixed
bucket count `N` (used while reasoning about the repair pass, whose
intermediate states all share the same bucket count). -/
def ProbeInvM {V K : Type} (hash : K → Nat) (extract : V → K) (N : Nat)
    (s : kernel V) : Prop :=
  ∀ i v, slot s i = some v →
    ∀ t, t < cd N (hash (extract v) % N) i →
      (slot s ((hash (extract v) % N + t) % N)).isSome = true

/-- Concrete default-constructed table used to certify the theorems. -/
def s16 : kernel Nat := init Nat 16

/-- Fold-insert a list of keys (identity hash and key view). -/
def insN (l : List Nat) (s : kernel Nat) : kernel Nat :=
  l.foldl (fun t k => (insert id id t k).1) s

/-- A table holding the two keys 0 and 1. -/
def s_two : kernel Nat := insN [0, 1] s16

/-- A 64-slot table holding keys 0..16, obtained by a public rehash(64);
its low-water mark (19) exceeds its size (17). -/
def s_c4 : kernel Nat := rehash id id 35 (insN (List.range 17) s16) 64

theorem cd_lt (N a b : Nat) (hN : 0 < N) : cd N a b < N :=
  Nat.mod_lt _ hN

theorem cd_self (N a : Nat) : cd N a a = 0 := by
  simp [cd, Nat.add_sub_cancel_left]

/-- Closed form of `cd` on reduced indices. -/
theorem cd_eq (N a b : Nat) (ha : a < N) (hb : b < N) :
    cd N a b = if a ≤ b then b - a else b + N - a := by
  unfold cd
  rcases le_or_lt a b with h | h
  · have h1 : b + N - a = (b - a) + N := by omega
    rw [h1, Nat.add_mod_right, if_pos h, Nat.mod_eq_of_lt (by omega)]
  · rw [if_neg (by omega), Nat.mod_eq_of_lt (by omega)]

theorem cd_eq_zero_iff (N a b : Nat) (hN : 0 < N) (ha : a < N) (hb : b < N) :
    cd N a b = 0 ↔ a = b := by
  rw [cd_eq N a b ha hb]
  split <;> omega

theorem cd_pos_of_ne (N a b : Nat) (hN : 0 < N) (ha : a < N) (hb : b < N)
    (h : a ≠ b) : 0 < cd N a b := by
  have := cd_eq_zero_iff N a b hN ha hb
  omega

/-- Distance to the slot `t` steps ahead of `a` is `t` itself (for `t < N`). -/
theorem cd_offset (N a t : Nat) (ha : a < N) (ht : t < N) :
    cd N a ((a + t) % N) = t := by
  unfold cd
  rcases Nat.lt_or_ge (a + t) N with h | h
  · rw [Nat.mod_eq_of_lt h]
    have h1 : a + t + N - a = t + N := by omega
    rw [h1, Nat.add_mod_right, Nat.mod_eq_of_lt ht]
  · have h2 : (a + t) % N = a + t - N := by
      rw [Nat.mod_eq_sub_mod h, Nat.mod_eq_of_lt (by omega)]
    rw [h2]
    have h3 : a + t - N + N - a = t := by omega
    rw [h3, Nat.mod_eq_of_lt ht]

/-- Stepping forward by the circular distance lands on the target slot. -/
theorem cd_shot (N a b : Nat) (ha : a < N) (hb : b < N) :
    (a + cd N a b) % N = b := by
  rw [cd_eq N a b ha hb]
  rcases le_or_lt a b with h | h
  · rw [if_pos h]
    have h1 : a + (b - a) = b := by omega
    rw [h1, Nat.mod_eq_of_lt hb]
  · rw [if_neg (by omega)]
    have h1 : a + (b + N - a) = b + N := by omega
    rw [h1, Nat.add_mod_right, Nat.mod_eq_of_lt hb]

/-- If `t < N` forward steps from `a` reach `b`, then `t` is the distance. -/
theorem cd_of_hit (N a b t : Nat) (ha : a < N) (ht : t < N)
    (h : (a + t) % N = b) : t = cd N a b := by
  rw [← h, cd_offset N a t ha ht]

theorem cd_antisymm (N a b : Nat) (ha : a < N) (hb : b < N) (hne : a ≠ b) :
    cd N a b + cd N b a = N := by
  rw [cd_eq N a b ha hb, cd_eq N b a hb ha]
  rcases le_or_lt a b with h | h
  · rw [if_pos h, if_neg (by omega)]
    omega
  · rw [if_neg (by omega), if_pos (by omega)]
    omega

/-- Reduction of a sum of two reduced summands modulo `N`. -/
theorem mod_add_two (N x y : Nat) (hx : x < N) (hy : y < N) :
    (x + y) % N = if N ≤ x + y then x + y - N else x + y := by
  rcases Nat.lt_or_ge (x + y) N with h | h
  · rw [Nat.mod_eq_of_lt h, if_neg (by omega)]
  · rw [Nat.mod_eq_sub_mod h, Nat.mod_eq_of_lt (by omega), if_pos h]

theorem cd_triangle (N a b c : Nat) (ha : a < N) (hb : b < N) (hc : c < N) :
    cd N a c = (cd N a b + cd N b c) % N := by
  have hN : 0 < N := by omega
  rw [mod_add_two N _ _ (cd_lt N a b hN) (cd_lt N b c hN)]
  rw [cd_eq N a c ha hc, cd_eq N a b ha hb, cd_eq N b c hb hc]
  split_ifs <;> omega

/-- One forward probe step shortens the distance to a distinct target by one. -/
theorem cd_step (N a b : Nat) (hN : 0 < N) (ha : a < N) (hb : b < N)
    (hne : a ≠ b) : cd N ((a + 1) % N) b = cd N a b - 1 ∧ 0 < cd N a b := by
  have hpos : 0 < cd N a b := cd_pos_of_ne N a b hN ha hb hne
  refine ⟨?_, hpos⟩
  have hN2 : 2 ≤ N := by
    rcases Nat.lt_or_ge N 2 with h | h
    · interval_cases N <;> omega
    · exact h
  have ha' : (a + 1) % N < N := Nat.mod_lt _ hN
  have h1 : cd N a ((a + 1) % N) = 1 := cd_offset N a 1 ha (by omega)
  have h2 := cd_triangle N a ((a + 1) % N) b ha ha' hb
  rw [h1, mod_add_two N 1 _ (by omega) (cd_lt N _ b hN)] at h2
  have h3 := cd_lt N ((a + 1) % N) b hN
  split_ifs at h2 <;> omega

theorem smearBits_base (m : Nat) : SmearBits m 1 m := by
  intro i
  constructor
  · intro h
    exact ⟨i, Nat.le_refl i, by omega, h⟩
  · rintro ⟨j, h1, h2, h3⟩
    have hj : j = i := by omega
    rw [← hj]
    exact h3

theorem smearBits_step (m w x : Nat) (h : SmearBits m w x) :
    SmearBits m (w + w) (orShift w x) := by
  intro i
  rw [orShift, Nat.testBit_or, Nat.testBit_shiftRight, Bool.or_eq_true]
  constructor
  · rintro (hb | hb)
    · obtain ⟨j, h1, h2, h3⟩ := (h i).mp hb
      exact ⟨j, h1, by omega, h3⟩
    · obtain ⟨j, h1, h2, h3⟩ := (h (w + i)).mp hb
      exact ⟨j, by omega, by omega, h3⟩
  · rintro ⟨j, h1, h2, h3⟩
    rcases Nat.lt_or_ge j (i + w) with hj | hj
    · exact Or.inl ((h i).mpr ⟨j, h1, hj, h3⟩)
    · exact Or.inr ((h (w + i)).mpr ⟨j, by omega, by omega, h3⟩)

/-- Some bit at or above position `i` is set iff `i` is below the bit size. -/
theorem exists_high_bit_iff (m i : Nat) :
    (∃ j, i ≤ j ∧ m.testBit j = true) ↔ i < m.size := by
  constructor
  · rintro ⟨j, h1, h2⟩
    have hj : 2 ^ j ≤ m := by
      by_contra hc
      rw [Nat.testBit_lt_two_pow (by omega)] at h2
      exact Bool.false_ne_true h2
    have := Nat.lt_size.mpr hj
    omega
  · intro hi
    by_contra hc
    push_neg at hc
    have hall : ∀ j, i ≤ j → m.testBit j = false := by
      intro j hj
      have := hc j hj
      revert this
      cases m.testBit j <;> simp
    have hm : m = m % 2 ^ i := by
      apply Nat.eq_of_testBit_eq
      intro b
      rw [Nat.testBit_mod_two_pow]
      rcases Nat.lt_or_ge b i with hb | hb
      · simp [hb]
      · simp [hall b hb, Nat.not_lt.mpr hb]
    have hlt : m < 2 ^ i := by
      rw [hm]
      exact Nat.mod_lt _ (Nat.pos_pow_of_pos i (by omega))
    have := Nat.size_le.mpr hlt
    omega

/-- The full cascade turns `m < 2^64` into the all-ones mask below its
bit size. -/
theorem smear_eq (m x : Nat) (hm : m < 2 ^ 64) (h : SmearBits m 64 x) :
    x = 2 ^ m.size - 1 := by
  have hsz : m.size ≤ 64 := Nat.size_le.mpr hm
  apply Nat.eq_of_testBit_eq
  intro b
  rw [Nat.testBit_two_pow_sub_one]
  have hiff : x.testBit b = true ↔ b < m.size := by
    rw [h b, ← exists_high_bit_iff m b]
    constructor
    · rintro ⟨j, h1, _, h3⟩
      exact ⟨j, h1, h3⟩
    · rintro ⟨j, h1, h3⟩
      have hj : 2 ^ j ≤ m := by
        by_contra hc
        rw [Nat.testBit_lt_two_pow (by omega)] at h3
        exact Bool.false_ne_true h3
      have : j < m.size := Nat.lt_size.mpr hj
      exact ⟨j, h1, by omega, h3⟩
  by_cases hb : b < m.size
  · simp only [hb, decide_True]
    exact hiff.mpr hb
  · simp only [hb, decide_False]
    cases hx : x.testBit b with
    | false => rfl
    | true => exact absurd (hiff.mp hx) hb

/-- Characterization of `upper_power_of_two` on inputs `1 ≤ n ≤ 2^63`:
it returns `2 ^ (n-1).size`, the least power of two that is at least `n`. -/
theorem upper_power_of_two_spec (n : Nat) (h1 : 1 ≤ n) (h2 : n ≤ 2 ^ 63) :
    upper_power_of_two n = 2 ^ (n - 1).size ∧
    n ≤ 2 ^ (n - 1).size ∧
    (∀ j, n ≤ 2 ^ j → (n - 1).size ≤ j) := by
  have hm : n - 1 < 2 ^ 63 := by omega
  have hmod : (n + (2 ^ 64 - 1)) % 2 ^ 64 = n - 1 := by
    have he : n + (2 ^ 64 - 1) = (n - 1) + 2 ^ 64 := by omega
    rw [he, Nat.add_mod_right, Nat.mod_eq_of_lt (by omega)]
  have hs1 := smearBits_step _ _ _ (smearBits_base (n - 1))
  have hs2 := smearBits_step _ _ _ hs1
  have hs3 := smearBits_step _ _ _ hs2
  have hs4 := smearBits_step _ _ _ hs3
  have hs5 := smearBits_step _ _ _ hs4
  have hs6 := smearBits_step _ _ _ hs5
  have hx : orShift 32 (orShift 16 (orShift 8 (orShift 4 (orShift 2
      (orShift 1 (n - 1)))))) = 2 ^ (n - 1).size - 1 :=
    smear_eq _ _ (by omega) hs6
  have hsz : (n - 1).size ≤ 63 := Nat.size_le.mpr hm
  have hpow : 2 ^ (n - 1).size ≤ 2 ^ 63 := Nat.pow_le_pow_right (by omega) hsz
  have hle : n ≤ 2 ^ (n - 1).size := by
    have : n - 1 < 2 ^ (n - 1).size := Nat.size_le.mp (Nat.le_refl _)
    omega
  refine ⟨?_, hle, ?_⟩
  · unfold upper_power_of_two
    rw [hmod, hx]
    have hp1 : 1 ≤ 2 ^ (n - 1).size := Nat.one_le_two_pow
    have he : 2 ^ (n - 1).size - 1 + 1 = 2 ^ (n - 1).size := by omega
    rw [he, Nat.mod_eq_of_lt (by omega)]
  · intro j hj
    exact Nat.size_le.mpr (by omega)

/-- On a power of two (up to `2^63`) the round-up is the identity; this is
what keeps the recursion guard `bucket_count_ != count` silent during the
growth and shrink rehashes the kernel itself triggers. -/
theorem upper_power_of_two_pow (k : Nat) (hk : k ≤ 63) :
    upper_power_of_two (2 ^ k) = 2 ^ k := by
  obtain ⟨heq, hle, hmin⟩ := upper_power_of_two_spec (2 ^ k)
    Nat.one_le_two_pow (Nat.pow_le_pow_right (by omega) hk)
  have h1 := hmin k (Nat.le_refl _)
  have h2 : 2 ^ (2 ^ k - 1).size ≤ 2 ^ k := Nat.pow_le_pow_right (by omega) h1
  rw [heq]
  omega

/-! ## List helpers

Small lemmas about `List.getD`/`List.set`/`List.countP` used to track slot
contents, occupancy counts and per-key counts of the bucket vector. -/

theorem getD_set_self {α : Type} (l : List α) (i : Nat) (a d : α)
    (h : i < l.length) : (l.set i a).getD i d = a := by
  rw [List.getD_eq_getElem?_getD, List.getElem?_set_self' ]
  simp [List.getElem?_eq_getElem, h]

theorem getD_set_ne {α : Type} (l : List α) (i j : Nat) (a d : α)
    (h : i ≠ j) : (l.set i a).getD j d = l.getD j d := by
  rw [List.getD_eq_getElem?_getD, List.getElem?_set_ne h, ← List.getD_eq_getElem?_getD]

theorem lt_length_of_getD {V : Type} (l : List (Option V)) (i : Nat) (v : V)
    (h : l.getD i none = some v) : i < l.length := by
  by_contra hc
  rw [List.getD_eq_getElem?_getD, List.getElem?_eq_none (by omega)] at h
  simp at h

theorem getD_replicate_none {V : Type} (n i : Nat) :
    (List.replicate n (none : Option V)).getD i none = none := by
  rw [List.getD_eq_getElem?_getD]
  rcases Nat.lt_or_ge i n with h | h
  · rw [List.getElem?_eq_getElem (by simpa using h)]
    simp
  · rw [List.getElem?_eq_none (by simpa using h)]
    rfl

/-- Effect of a single `set` on a `countP`, stated through `getD`. -/
theorem countP_set {α : Type} (p : α → Bool) (l : List α) (i : Nat) (a d : α)
    (h : i < l.length) :
    (l.set i a).countP p + (if p (l.getD i d) then 1 else 0)
      = l.countP p + (if p a then 1 else 0) := by
  induction l generalizing i with
  | nil => simp at h
  | cons x xs ih =>
    cases i with
    | zero =>
      simp only [List.set, List.countP_cons, List.getD_cons_zero]
      omega
    | succ n =>
      have hn : n < xs.length := by
        simp at h
        omega
      have := ih n hn
      simp only [List.set, List.countP_cons, List.getD_cons_succ]
      omega

theorem countP_pos_getD {α : Type} (p : α → Bool) (l : List α) (d : α)
    (h : 0 < l.countP p) : ∃ i, i < l.length ∧ p (l.getD i d) = true := by
  induction l with
  | nil => simp at h
  | cons x xs ih =>
    cases hx : p x with
    | true => exact ⟨0, by simp, by simpa using hx⟩
    | false =>
      rw [List.countP_cons, hx] at h
      simp only [Bool.false_eq_true, if_false, Nat.add_zero] at h
      obtain ⟨i, h1, h2⟩ := ih h
      exact ⟨i + 1, by simp; omega, by simpa using h2⟩

theorem countP_lt_length_getD {α : Type} (p : α → Bool) (l : List α) (d : α)
    (h : l.countP p < l.length) :
    ∃ i, i < l.length ∧ p (l.getD i d) = false := by
  induction l with
  | nil => simp at h
  | cons x xs ih =>
    cases hx : p x with
    | false => exact ⟨0, by simp, by simpa using hx⟩
    | true =>
      rw [List.countP_cons, hx] at h
      simp at h
      obtain ⟨i, h1, h2⟩ := ih (by omega)
      exact ⟨i + 1, by simp; omega, by simpa using h2⟩

theorem one_le_countP_getD {α : Type} (p : α → Bool) (l : List α) (d : α)
    (i : Nat) (hi : i < l.length) (hp : p (l.getD i d) = true) :
    1 ≤ l.countP p := by
  induction l generalizing i with
  | nil => simp at hi
  | cons x xs ih =>
    rw [List.countP_cons]
    cases i with
    | zero =>
      rw [List.getD_cons_zero] at hp
      rw [hp, if_pos rfl]
      omega
    | succ n =>
      have := ih n (by simp at hi; omega) (by simpa using hp)
      omega

theorem two_le_countP_getD {α : Type} (p : α → Bool) (l : List α) (d : α)
    (i j : Nat) (hij : i ≠ j) (hi : i < l.length) (hj : j < l.length)
    (hpi : p (l.getD i d) = true) (hpj : p (l.getD j d) = true) :
    2 ≤ l.countP p := by
  induction l generalizing i j with
  | nil => simp at hi
  | cons x xs ih =>
    rw [List.countP_cons]
    cases i with
    | zero =>
      cases j with
      | zero => omega
      | succ m =>
        rw [List.getD_cons_zero] at hpi
        rw [hpi, if_pos rfl]
        have := one_le_countP_getD p xs d m (by simp at hj; omega) (by simpa using hpj)
        omega
    | succ n =>
      cases j with
      | zero =>
        rw [List.getD_cons_zero] at hpj
        rw [hpj, if_pos rfl]
        have := one_le_countP_getD p xs d n (by simp at hi; omega) (by simpa using hpi)
        omega
      | succ m =>
        have := ih n m (by omega) (by simp at hi; omega) (by simp at hj; omega)
          (by simpa using hpi) (by simpa using hpj)
        omega

theorem countP_replicate_none {V : Type} (p : Option V → Bool) (n : Nat)
    (hp : p none = false) : (List.replicate n (none : Option V)).countP p = 0 := by
  induction n with
  | zero => rfl
  | succ m ih =>
    rw [List.replicate_succ, List.countP_cons, hp]
    simpa using ih

theorem key_pred_slot_iff {V K : Type} (extract : V → K) [DecidableEq K]
    (k : K) (o : Option V) :
    key_pred extract k o = true ↔ ∃ v, o = some v ∧ extract v = k := by
  cases o with
  | none =>
    simp [key_pred]
  | some v =>
    simp [key_pred]

theorem countP_ge_two_exists {α : Type} (p : α → Bool) (l : List α) (d : α)
    (h : 2 ≤ l.countP p) :
    ∃ i j, i < l.length ∧ j < l.length ∧ i ≠ j ∧
      p (l.getD i d) = true ∧ p (l.getD j d) = true := by
  induction l with
  | nil => simp at h
  | cons x xs ih =>
    cases hx : p x with
    | true =>
      rw [List.countP_cons, hx, if_pos rfl] at h
      obtain ⟨i, hi, hp⟩ := countP_pos_getD p xs d (by omega)
      exact ⟨0, i + 1, by simp, by simp; omega, by omega,
        by simpa using hx, by simpa using hp⟩
    | false =>
      rw [List.countP_cons, hx] at h
      simp only [Bool.false_eq_true, if_false, Nat.add_zero] at h
      obtain ⟨i, j, hi, hj, hij, hpi, hpj⟩ := ih h
      exact ⟨i + 1, j + 1, by simp; omega, by simp; omega, by omega,
        by simpa using hpi, by simpa using hpj⟩

/-- Soundness of the executable check. -/
theorem checkWF_sound {V K : Type} (hash : K → Nat) (extract : V → K)
    [DecidableEq K] (s : kernel V) (h : checkWF hash extract s = true) :
    WF hash extract s := by
  unfold checkWF at h
  simp only [Bool.and_eq_true, beq_iff_eq, decide_eq_true_eq,
    List.any_eq_true, List.all_eq_true, List.mem_range] at h
  obtain ⟨⟨⟨⟨⟨⟨⟨hlen, hpow⟩, hso⟩, hmin⟩, hmax⟩, hsle⟩, hprobe⟩, huniq⟩ := h
  refine ⟨hlen, ?_, hso, hmin, hmax, hsle, ?_, ?_⟩
  · obtain ⟨j, hj, he⟩ := hpow
    exact ⟨j, by omega, he⟩
  · intro i v hv t ht
    have hi : i < s.bucket_count := by
      have := lt_length_of_getD s.buckets i v hv
      omega
    have hp := hprobe i hi
    rw [hv] at hp
    simp only [List.all_eq_true, List.mem_range] at hp
    exact hp t ht
  · intro k
    by_contra hc
    push_neg at hc
    obtain ⟨i, j, hi, hj, hij, hpi, hpj⟩ :=
      countP_ge_two_exists (key_pred extract k) s.buckets none hc
    obtain ⟨vi, hvi, hki⟩ := (key_pred_slot_iff extract k _).mp hpi
    obtain ⟨vj, hvj, hkj⟩ := (key_pred_slot_iff extract k _).mp hpj
    have hiN : i < s.bucket_count := by omega
    have hjN : j < s.bucket_count := by omega
    have hu := huniq i hiN j hjN
    rw [show slot s i = some vi from hvi, show slot s j = some vj from hvj] at hu
    have hee : extract vi = extract vj := by rw [hki, hkj]
    simp only [hee, decide_True, Bool.not_true, Bool.false_or, beq_iff_eq] at hu
    exact hij hu

/-! ## Basic bridges -/

theorem contains_key_iff {V K : Type} (extract : V → K) [DecidableEq K]
    (s : kernel V) (k : K) :
    contains_key extract s k = true ↔ 0 < key_count extract s k := by
  rw [contains_key, key_count, List.any_eq_true, List.countP_pos_iff]

theorem contains_key_false {V K : Type} (extract : V → K) [DecidableEq K]
    (s : kernel V) (k : K) :
    contains_key extract s k = false ↔ key_count extract s k = 0 := by
  have h1 := contains_key_iff extract s k
  constructor
  · intro h
    by_contra hc
    have := h1.mpr (by omega)
    rw [h] at this
    exact Bool.false_ne_true this
  · intro h
    cases hb : contains_key extract s k with
    | false => rfl
    | true =>
      have := h1.mp hb
      omega

theorem exists_slot_of_contains {V K : Type} (extract : V → K) [DecidableEq K]
    (s : kernel V) (k : K) (h : contains_key extract s k = true) :
    ∃ j v, j < s.buckets.length ∧ slot s j = some v ∧ extract v = k := by
  rw [contains_key_iff] at h
  obtain ⟨j, hj, hp⟩ := countP_pos_getD (key_pred extract k) s.buckets none h
  obtain ⟨v, hv, hk⟩ := (key_pred_slot_iff extract k _).mp hp
  exact ⟨j, v, hj, hv, hk⟩

theorem absent_no_slot {V K : Type} (extract : V → K) [DecidableEq K]
    (s : kernel V) (k : K) (h : contains_key extract s k = false) :
    ∀ j v, slot s j = some v → extract v ≠ k := by
  intro j v hv hk
  have hj : j < s.buckets.length := lt_length_of_getD s.buckets j v hv
  have hp : key_pred extract k (s.buckets.getD j none) = true :=
    (key_pred_slot_iff extract k _).mpr ⟨v, hv, hk⟩
  have := one_le_countP_getD (key_pred extract k) s.buckets none j hj hp
  rw [contains_key_false] at h
  rw [key_count] at h
  omega

theorem land_mod (x bc : Nat) (h : ∃ j, bc = 2 ^ j) : x &&& (bc - 1) = x % bc := by
  obtain ⟨j, rfl⟩ := h
  exact Nat.and_pow_two_sub_one_eq_mod x j

theorem index_from_key_eq {V K : Type} (hash : K → Nat) (s : kernel V) (k : K)
    (h : ∃ j, s.bucket_count = 2 ^ j) :
    index_from_key hash s k = hash k % s.bucket_count :=
  land_mod (hash k) s.bucket_count h

theorem index_from_value_eq {V K : Type} (hash : K → Nat) (extract : V → K)
    (s : kernel V) (v : V) (h : ∃ j, s.bucket_count = 2 ^ j) :
    index_from_value hash extract s v = hash (extract v) % s.bucket_count :=
  land_mod (hash (extract v)) s.bucket_count h

theorem index_add_eq {V : Type} (s : kernel V) (i x : Nat)
    (h : ∃ j, s.bucket_count = 2 ^ j) :
    index_add s i x = (i + x) % s.bucket_count :=
  land_mod (i + x) s.bucket_count h

theorem pow_pos_of {V : Type} (s : kernel V)
    (h : ∃ j, s.bucket_count = 2 ^ j) : 0 < s.bucket_count := by
  obtain ⟨j, hj⟩ := h
  rw [hj]
  exact Nat.pos_pow_of_pos j (by omega)

/-- Weakened power-of-two fact from well-formedness. -/
theorem WF.pow' {V K : Type} {hash : K → Nat} {extract : V → K} [DecidableEq K]
    {s : kernel V} (hwf : WF hash extract s) : ∃ j, s.bucket_count = 2 ^ j := by
  obtain ⟨j, _, hj⟩ := hwf.pow
  exact ⟨j, hj⟩

/-! ## The probe loop -/

theorem scan_sound {V K : Type} (extract : V → K) [DecidableEq K] :
    ∀ (fuel : Nat) (s : kernel V) (k : K) (i j : Nat),
    scan extract fuel s k i = some j →
    ∃ v, slot s j = some v ∧ extract v = k := by
  intro fuel
  induction fuel with
  | zero =>
    intro s k i j h
    simp [scan] at h
  | succ f ih =>
    intro s k i j h
    unfold scan at h
    cases hs : slot s i with
    | none =>
      rw [hs] at h
      simp at h
    | some v =>
      rw [hs] at h
      simp only at h
      by_cases he : extract v = k
      · rw [if_pos he] at h
        injection h with h
        rw [← h]
        exact ⟨v, hs, he⟩
      · rw [if_neg he] at h
        exact ih s k _ j h

theorem scan_absent {V K : Type} (extract : V → K) [DecidableEq K]
    (s : kernel V) (k : K)
    (habs : ∀ j v, slot s j = some v → extract v ≠ k) :
    ∀ fuel i, scan extract fuel s k i = none := by
  intro fuel
  induction fuel with
  | zero =>
    intro i
    rfl
  | succ f ih =>
    intro i
    unfold scan
    cases hs : slot s i with
    | none => rfl
    | some v =>
      simp only
      rw [if_neg (habs i v hs)]
      exact ih _

theorem scan_complete {V K : Type} (extract : V → K) [DecidableEq K]
    (s : kernel V) (k : K) (N : Nat)
    (hbc : s.bucket_count = N) (hpow : ∃ j, N = 2 ^ j)
    (jk : Nat) (w : V) (hjkN : jk < N) (hw : slot s jk = some w)
    (hkey : extract w = k) :
    ∀ fuel i, i < N → cd N i jk < fuel →
    (∀ u, u < cd N i jk → (slot s ((i + u) % N)).isSome = true) →
    ∃ j, scan extract fuel s k i = some j := by
  have hN : 0 < N := by
    obtain ⟨j, hj⟩ := hpow
    rw [hj]
    exact Nat.pos_pow_of_pos j (by omega)
  intro fuel
  induction fuel with
  | zero =>
    intro i hi hf hrun
    omega
  | succ f ih =>
    intro i hi hf hrun
    by_cases hij : i = jk
    · subst hij
      unfold scan
      rw [hw]
      simp only
      rw [if_pos hkey]
      exact ⟨i, rfl⟩
    · have hcd := cd_pos_of_ne N i jk hN hi hjkN hij
      have hocc := hrun 0 hcd
      rw [Nat.add_zero, Nat.mod_eq_of_lt hi] at hocc
      cases hv : slot s i with
      | none =>
        rw [hv] at hocc
        simp at hocc
      | some v =>
        unfold scan
        rw [hv]
        simp only
        by_cases he : extract v = k
        · rw [if_pos he]
          exact ⟨i, rfl⟩
        · rw [if_neg he]
          have hadd : index_add s i 1 = (i + 1) % N := by
            rw [index_add_eq s i 1 (by rw [hbc]; exact hpow), hbc]
          rw [hadd]
          have hstep := cd_step N i jk hN hi hjkN hij
          apply ih ((i + 1) % N) (Nat.mod_lt _ hN) (by omega)
          intro u hu
          have heq : (((i + 1) % N) + u) % N = (i + (1 + u)) % N := by
            rw [Nat.mod_add_mod]
            congr 1
            omega
          rw [heq]
          exact hrun (1 + u) (by omega)

/-- On a well-formed state, a present key is found by the probe loop. -/
theorem find_present {V K : Type} (hash : K → Nat) (extract : V → K)
    [DecidableEq K] (s : kernel V) (k : K)
    (hwf : WF hash extract s) (hc : contains_key extract s k = true) :
    ∃ j v, scan extract s.bucket_count s k (index_from_key hash s k) = some j ∧
      slot s j = some v ∧ extract v = k := by
  obtain ⟨jk, w, hjk, hw, hkey⟩ := exists_slot_of_contains extract s k hc
  have hN : 0 < s.bucket_count := pow_pos_of s hwf.pow'
  have hjkN : jk < s.bucket_count := by
    have := hwf.len
    omega
  have hifk : index_from_key hash s k = hash k % s.bucket_count :=
    index_from_key_eq hash s k hwf.pow'
  have hifv : index_from_value hash extract s w = hash k % s.bucket_count := by
    rw [index_from_value_eq hash extract s w hwf.pow', hkey]
  have hrun := hwf.probe jk w hw
  rw [hifv] at hrun
  obtain ⟨j, hscan⟩ := scan_complete extract s k s.bucket_count rfl hwf.pow'
    jk w hjkN hw hkey s.bucket_count (hash k % s.bucket_count)
    (Nat.mod_lt _ hN) (cd_lt _ _ _ hN) hrun
  obtain ⟨v, hv, hk⟩ := scan_sound extract s.bucket_count s k _ j hscan
  rw [hifk]
  exact ⟨j, v, hscan, hv, hk⟩

/-- An absent key makes the probe loop return the not-found result,
independently of any invariant. -/
theorem find_impl_absent {V K : Type} (hash : K → Nat) (extract : V → K)
    [DecidableEq K] (s : kernel V) (k : K) (i : Nat)
    (hc : contains_key extract s k = false) :
    find_impl hash extract s k i = s.bucket_count := by
  unfold find_impl
  rw [scan_absent extract s k (absent_no_slot extract s k hc)]
  rfl

/-! ## Placement -/

theorem index_from_value_congr {V K : Type} (hash : K → Nat) (extract : V → K)
    (s t : kernel V) (v : V) (h : s.bucket_count = t.bucket_count) :
    index_from_value hash extract s v = index_from_value hash extract t v := by
  unfold index_from_value index_from_key
  rw [h]

theorem slot_none_of_isSome_false {V : Type} (s : kernel V) (i : Nat)
    (h : (slot s i).isSome = false) : slot s i = none := by
  cases hs : slot s i with
  | none => rfl
  | some v =>
    rw [hs] at h
    simp at h

theorem place_loop_spec {V : Type} (s : kernel V) (N : Nat)
    (hbc : s.bucket_count = N) (hpow : ∃ j, N = 2 ^ j)
    (E : Nat) (hE : E < N) (hEe : slot s E = none) :
    ∀ fuel i, i < N → cd N i E < fuel →
    slot s (place_loop fuel s i) = none ∧ place_loop fuel s i < N ∧
    (∀ t, t < cd N i (place_loop fuel s i) →
      (slot s ((i + t) % N)).isSome = true) := by
  have hN : 0 < N := by omega
  intro fuel
  induction fuel with
  | zero =>
    intro i hi hf
    omega
  | succ f ih =>
    intro i hi hf
    unfold place_loop
    cases hocc : (slot s i).isSome with
    | false =>
      simp only [hocc, Bool.false_eq_true, if_false]
      refine ⟨slot_none_of_isSome_false s i hocc, hi, ?_⟩
      intro t ht
      rw [cd_self] at ht
      omega
    | true =>
      simp only [hocc, if_true]
      have hiE : i ≠ E := by
        intro he
        rw [he, hEe] at hocc
        simp at hocc
      have hadd : index_add s i 1 = (i + 1) % N := by
        rw [index_add_eq s i 1 (by rw [hbc]; exact hpow), hbc]
      rw [hadd]
      have hstep := cd_step N i E hN hi hE hiE
      obtain ⟨h1, h2, h3⟩ := ih ((i + 1) % N) (Nat.mod_lt _ hN) (by omega)
      refine ⟨h1, h2, ?_⟩
      set p := place_loop f s ((i + 1) % N) with hp
      have hip : i ≠ p := by
        intro he
        rw [← he] at h1
        rw [h1] at hocc
        simp at hocc
      have hN1 : 1 < N := by
        by_contra hc
        apply hiE
        omega
      have hcdi : cd N i p = 1 + cd N ((i + 1) % N) p := by
        have ht := cd_triangle N i ((i + 1) % N) p hi (Nat.mod_lt _ hN) h2
        rw [cd_offset N i 1 hi hN1] at ht
        have hlt := cd_lt N ((i + 1) % N) p hN
        rw [mod_add_two N 1 _ (by omega) hlt] at ht
        split_ifs at ht with hc
        · exfalso
          have : cd N i p = 0 := by omega
          rw [cd_eq_zero_iff N i p hN hi h2] at this
          exact hip this
        · omega
      intro t ht
      rw [hcdi] at ht
      cases t with
      | zero =>
        rw [Nat.add_zero, Nat.mod_eq_of_lt hi]
        exact hocc
      | succ u =>
        have heq : (i + (u + 1)) % N = (((i + 1) % N) + u) % N := by
          rw [Nat.mod_add_mod]
          congr 1
          omega
        rw [heq]
        exact h3 u (by omega)

theorem place_spec {V K : Type} (hash : K → Nat) (extract : V → K)
    [DecidableEq K] (s : kernel V) (v : V) (N : Nat)
    (hbc : s.bucket_count = N) (hlen : s.buckets.length = N)
    (hpow : ∃ j, N = 2 ^ j) (hoccN : occ_count s < N)
    (idx : Nat) (hidx : idx < N) :
    slot s (place s v idx).2 = none ∧
    (place s v idx).2 < N ∧
    (∀ t, t < cd N idx (place s v idx).2 →
      (slot s ((idx + t) % N)).isSome = true) ∧
    occ_count (place s v idx).1 = occ_count s + 1 ∧
    (∀ k, key_count extract (place s v idx).1 k
        = key_count extract s k + (if extract v = k then 1 else 0)) ∧
    (∀ x, slot (place s v idx).1 x
        = if x = (place s v idx).2 then some v else slot s x) ∧
    (place s v idx).1.buckets.length = N := by
  have hN : 0 < N := by omega
  obtain ⟨E, hEl, hEP⟩ := countP_lt_length_getD (fun o => o.isSome) s.buckets none
    (by rw [hlen]; exact lt_of_le_of_lt (le_refl _) (by rw [← occ_count]; omega))
  have hEe : slot s E = none := slot_none_of_isSome_false s E hEP
  have hEN : E < N := by omega
  have hfuel : cd N idx E < s.bucket_count := by
    rw [hbc]
    exact cd_lt N idx E hN
  obtain ⟨h1, h2, h3⟩ := place_loop_spec s N hbc hpow E hEN hEe
    s.bucket_count idx hidx hfuel
  have hp2 : (place s v idx).2 = place_loop s.bucket_count s idx := rfl
  have hb : (place s v idx).1.buckets
      = s.buckets.set (place_loop s.bucket_count s idx) (some v) := rfl
  set p := place_loop s.bucket_count s idx with hpd
  have hplen : p < s.buckets.length := by omega
  refine ⟨by rw [hp2]; exact h1, by rw [hp2]; exact h2, by rw [hp2]; exact h3,
    ?_, ?_, ?_, ?_⟩
  · unfold occ_count
    rw [hb]
    have := countP_set (fun o => o.isSome) s.buckets p (some v) none hplen
    have hge : s.buckets.getD p none = none := h1
    rw [hge] at this
    simp at this
    omega
  · intro k
    unfold key_count
    rw [hb]
    have := countP_set (key_pred extract k) s.buckets p (some v) none hplen
    have hge : s.buckets.getD p none = none := h1
    rw [hge] at this
    have hkn : key_pred extract k (none : Option V) = false := rfl
    rw [hkn] at this
    simp only [Bool.false_eq_true, if_false, Nat.add_zero] at this
    rw [this]
    by_cases he : extract v = k
    · rw [if_pos he]
      have : key_pred extract k (some v) = true := by
        simp [key_pred, he]
      rw [this, if_pos rfl]
    · rw [if_neg he]
      have : key_pred extract k (some v) = false := by
        simp [key_pred, he]
      rw [this]
      simp
  · intro x
    rw [hp2]
    unfold slot
    rw [hb]
    by_cases hx : x = p
    · rw [if_pos hx, hx]
      exact getD_set_self s.buckets p (some v) none hplen
    · rw [if_neg hx]
      exact getD_set_ne s.buckets p x (some v) none (fun he => hx he.symm)
  · rw [hb, List.length_set]
    exact hlen

/-- Placement at the ideal index preserves the probe-run invariant. -/
theorem place_probe {V K : Type} (hash : K → Nat) (extract : V → K)
    [DecidableEq K] (s : kernel V) (v : V) (N : Nat)
    (hbc : s.bucket_count = N) (hlen : s.buckets.length = N)
    (hpow : ∃ j, N = 2 ^ j) (hoccN : occ_count s < N)
    (hprobe : ProbeInv hash extract s) :
    ProbeInv hash extract (place s v (index_from_value hash extract s v)).1 := by
  have hN : 0 < N := by omega
  have hidx : index_from_value hash extract s v < N := by
    rw [index_from_value_eq hash extract s v (by rw [hbc]; exact hpow), hbc]
    exact Nat.mod_lt _ hN
  obtain ⟨h1, h2, h3, h4, h5, h6, h7⟩ := place_spec hash extract s v N hbc hlen
    hpow hoccN (index_from_value hash extract s v) hidx
  set r := (place s v (index_from_value hash extract s v)).1 with hr
  set p := (place s v (index_from_value hash extract s v)).2 with hp
  have hrbc : r.bucket_count = s.bucket_count := rfl
  intro i w hw t ht
  have hifv : index_from_value hash extract r w = index_from_value hash extract s w :=
    index_from_value_congr hash extract r s w hrbc
  have hrbN : r.bucket_count = N := by rw [hrbc, hbc]
  rw [hifv, hrbN] at ht ⊢
  rw [h6 i] at hw
  by_cases hip : i = p
  · subst hip
    rw [if_pos rfl] at hw
    injection hw with hw
    subst hw
    rw [h6]
    split
    · simp
    · exact h3 t ht
  · rw [if_neg hip] at hw
    have hold := hprobe i w hw t (by rw [hbc]; exact ht)
    rw [hbc] at hold
    rw [h6]
    split
    · simp
    · exact hold

/-! ## Rehashing -/

theorem place_fields {V : Type} (s : kernel V) (v : V) (idx : Nat) :
    (place s v idx).1.bucket_count = s.bucket_count ∧
    (place s v idx).1.min_size = s.min_size ∧
    (place s v idx).1.max_size = s.max_size ∧
    (place s v idx).1.size = s.size + 1 :=
  ⟨rfl, rfl, rfl, rfl⟩

theorem sweep_spec {V K : Type} (hash : K → Nat) (extract : V → K)
    [DecidableEq K] (ins : kernel V → V → kernel V) (count j : Nat)
    (hcount : count = 2 ^ j)
    (hins : ∀ t w, t.size ≠ t.max_size →
      ins t w = (place t w (index_from_value hash extract t w)).1) :
    ∀ (old : List (Option V)) (t r : kernel V),
    t.bucket_count = count → t.buckets.length = count →
    t.min_size = 3 * count / 10 → t.max_size = 7 * count / 10 →
    t.size = occ_count t →
    occ_count t + old.countP (fun o => o.isSome) ≤ 7 * count / 10 →
    ProbeInv hash extract t →
    sweep_with ins count t old = r →
    r.bucket_count = count ∧ r.buckets.length = count ∧
    r.min_size = 3 * count / 10 ∧ r.max_size = 7 * count / 10 ∧
    r.size = occ_count r ∧
    occ_count r = occ_count t + old.countP (fun o => o.isSome) ∧
    (∀ k, key_count extract r k
        = key_count extract t k + old.countP (key_pred extract k)) ∧
    ProbeInv hash extract r := by
  have hcpos : 0 < count := by
    rw [hcount]
    exact Nat.pos_pow_of_pos j (by omega)
  intro old
  induction old with
  | nil =>
    intro t r h1 h2 h3 h4 h5 h6 h7 hr
    rw [sweep_with] at hr
    subst hr
    refine ⟨h1, h2, h3, h4, h5, by simp, fun k => by simp, h7⟩
  | cons o rest ih =>
    intro t r h1 h2 h3 h4 h5 h6 h7 hr
    cases o with
    | none =>
      rw [sweep_with] at hr
      have hcn : (List.countP (fun o => o.isSome) (none :: rest))
          = List.countP (fun o => o.isSome) rest := by
        rw [List.countP_cons]
        simp
      rw [hcn] at h6
      obtain ⟨c1, c2, c3, c4, c5, c6, c7, c8⟩ := ih t r h1 h2 h3 h4 h5 h6 h7 hr
      rw [hcn]
      refine ⟨c1, c2, c3, c4, c5, c6, ?_, c8⟩
      intro k
      have hkn : List.countP (key_pred extract k) (none :: rest)
          = List.countP (key_pred extract k) rest := by
        rw [List.countP_cons]
        simp [key_pred]
      rw [hkn]
      exact c7 k
    | some v =>
      have hcn : (List.countP (fun o => o.isSome) (some v :: rest))
          = List.countP (fun o => o.isSome) rest + 1 := by
        rw [List.countP_cons]
        simp
      rw [hcn] at h6
      have hlt : occ_count t < 7 * count / 10 := by omega
      have hne : t.size ≠ t.max_size := by
        rw [h5, h4]
        omega
      have hid : index_from_value hash extract t v < count := by
        rw [index_from_value_eq hash extract t v (by rw [h1]; exact ⟨j, hcount⟩), h1]
        exact Nat.mod_lt _ hcpos
      obtain ⟨p1, p2, p3, p4, p5, p6, p7⟩ := place_spec hash extract t v count
        h1 h2 ⟨j, hcount⟩ (by omega) (index_from_value hash extract t v) hid
      have hprobe' := place_probe hash extract t v count h1 h2 ⟨j, hcount⟩
        (by omega) h7
      rw [sweep_with] at hr
      rw [hins t v hne] at hr
      set t' := (place t v (index_from_value hash extract t v)).1 with ht'
      obtain ⟨f1, f2, f3, f4⟩ := place_fields t v (index_from_value hash extract t v)
      have hbc' : t'.bucket_count = count := by rw [f1, h1]
      have hguard : ¬ t'.bucket_count ≠ count := by
        rw [hbc']
        simp
      rw [if_neg hguard] at hr
      have hocc' : occ_count t' = occ_count t + 1 := p4
      obtain ⟨c1, c2, c3, c4, c5, c6, c7, c8⟩ := ih t' r hbc' p7
        (by rw [f2, h3]) (by rw [f3, h4])
        (by rw [f4, h5, hocc'])
        (by rw [hocc']; omega) hprobe' hr
      rw [hcn]
      refine ⟨c1, c2, c3, c4, c5, by rw [c6, hocc']; omega, ?_, c8⟩
      intro k
      have hkc : List.countP (key_pred extract k) (some v :: rest)
          = List.countP (key_pred extract k) rest
            + (if extract v = k then 1 else 0) := by
        rw [List.countP_cons]
        by_cases he : extract v = k
        · simp [key_pred, he]
        · simp [key_pred, he]
      rw [hkc, c7 k, p5 k]
      omega

/-- Specification of a rehash to a power-of-two target `count = 2^j`
(`j ≤ 63`) whose live entries fit under the new high-water mark: the sweep
completes, the recursion guard stays silent, and the new table holds
exactly the old entries. -/
theorem rehash_with_spec {V K : Type} (hash : K → Nat) (extract : V → K)
    [DecidableEq K] (ins : kernel V → V → kernel V) (s : kernel V)
    (count j : Nat) (hcount : count = 2 ^ j) (hj : j ≤ 63)
    (hins : ∀ t w, t.size ≠ t.max_size →
      ins t w = (place t w (index_from_value hash extract t w)).1)
    (hload : occ_count s ≤ 7 * count / 10) :
    (rehash_with ins s count).bucket_count = count ∧
    (rehash_with ins s count).buckets.length = count ∧
    (rehash_with ins s count).min_size = 3 * count / 10 ∧
    (rehash_with ins s count).max_size = 7 * count / 10 ∧
    (rehash_with ins s count).size = occ_count (rehash_with ins s count) ∧
    occ_count (rehash_with ins s count) = occ_count s ∧
    (∀ k, key_count extract (rehash_with ins s count) k = key_count extract s k) ∧
    ProbeInv hash extract (rehash_with ins s count) := by
  have hup : upper_power_of_two count = count := by
    rw [hcount]
    exact upper_power_of_two_pow j hj
  have hrw : rehash_with ins s count = sweep_with ins count
      { buckets := List.replicate count none, bucket_count := count,
        size := 0, min_size := 3 * count / 10,
        max_size := 7 * count / 10 } s.buckets := by
    unfold rehash_with
    rw [hup]
  set t0 : kernel V :=
    { buckets := List.replicate count none, bucket_count := count,
      size := 0, min_size := 3 * count / 10,
      max_size := 7 * count / 10 } with ht0
  have hocc0 : occ_count t0 = 0 := by
    unfold occ_count
    exact countP_replicate_none _ count rfl
  have hkey0 : ∀ k, key_count extract t0 k = 0 := by
    intro k
    unfold key_count
    exact countP_replicate_none _ count rfl
  have hprobe0 : ProbeInv hash extract t0 := by
    intro i v hv
    rw [show slot t0 i = (List.replicate count (none : Option V)).getD i none from rfl,
      getD_replicate_none] at hv
    exact absurd hv (by simp)
  obtain ⟨c1, c2, c3, c4, c5, c6, c7, c8⟩ := sweep_spec hash extract ins count j
    hcount hins s.buckets t0 (sweep_with ins count t0 s.buckets)
    rfl (by simp) rfl rfl (by rw [hocc0]) (by rw [hocc0, Nat.zero_add]; exact hload)
    hprobe0 rfl
  rw [hrw]
  refine ⟨c1, c2, c3, c4, c5, ?_, ?_, c8⟩
  · rw [c6, hocc0]
    unfold occ_count
    omega
  · intro k
    rw [c7 k, hkey0 k]
    unfold key_count
    omega

/-! ## Insertion -/

theorem pow_le_pow_exp (j : Nat) (h : 2 ^ j ≤ 2 ^ 62) : j ≤ 62 :=
  (Nat.pow_le_pow_iff_right (by omega)).mp h

/-- Headroom after a capacity doubling: a size under the old high-water
mark sits strictly under the doubled one. -/
theorem grow_margin (B sz mx : Nat) (hB : 0 < B)
    (hmx : mx = 7 * (2 * B) / 10) (hsz : sz ≤ 7 * B / 10) :
    sz ≤ mx ∧ sz < mx := by
  omega

/-- Specification of the private insert on a well-formed state holding a
fresh key (below the 64-bit overflow regime): the entry is placed, `size`
grows by one, and well-formedness is preserved; the bucket count doubles
exactly when the insert hit the high-water mark. -/
theorem insert_impl_spec {V K : Type} (hash : K → Nat) (extract : V → K)
    [DecidableEq K] (s : kernel V) (v : V) (f : Nat)
    (hwf : WF hash extract s) (hbound : s.bucket_count ≤ 2 ^ 62)
    (habs : key_count extract s (extract v) = 0) :
    WF hash extract
      (insert_impl hash extract (f + 2) s v (index_from_value hash extract s v)).1 ∧
    (insert_impl hash extract (f + 2) s v (index_from_value hash extract s v)).1.size
      = s.size + 1 ∧
    (∀ k, key_count extract
        (insert_impl hash extract (f + 2) s v (index_from_value hash extract s v)).1 k
      = key_count extract s k + (if extract v = k then 1 else 0)) ∧
    (insert_impl hash extract (f + 2) s v (index_from_value hash extract s v)).1.bucket_count
      = (if s.size = s.max_size then 2 * s.bucket_count else s.bucket_count) := by
  obtain ⟨j, hj63, hbc⟩ := hwf.pow
  have hj62 : j ≤ 62 := pow_le_pow_exp j (by rw [← hbc]; exact hbound)
  have hcpos : 0 < s.bucket_count := pow_pos_of s ⟨j, hbc⟩
  -- a small helper fact: the placement-branch analysis, applicable to any
  -- well-formed state with a fresh key and size strictly below the mark
  have hplace : ∀ (t : kernel V), WF hash extract t → t.size < t.max_size →
      key_count extract t (extract v) = 0 →
      WF hash extract (place t v (index_from_value hash extract t v)).1 ∧
      (place t v (index_from_value hash extract t v)).1.size = t.size + 1 ∧
      (∀ k, key_count extract (place t v (index_from_value hash extract t v)).1 k
        = key_count extract t k + (if extract v = k then 1 else 0)) ∧
      (place t v (index_from_value hash extract t v)).1.bucket_count
        = t.bucket_count := by
    intro t hwt hlt habt
    obtain ⟨j', hj63', hbc'⟩ := hwt.pow
    have hcpos' : 0 < t.bucket_count := pow_pos_of t ⟨j', hbc'⟩
    have hmaxlt : t.max_size < t.bucket_count := by
      rw [hwt.max_eq]
      omega
    have hoccN : occ_count t < t.bucket_count := by
      rw [← hwt.size_occ]
      omega
    have hid : index_from_value hash extract t v < t.bucket_count := by
      rw [index_from_value_eq hash extract t v ⟨j', hbc'⟩]
      exact Nat.mod_lt _ hcpos'
    obtain ⟨p1, p2, p3, p4, p5, p6, p7⟩ := place_spec hash extract t v
      t.bucket_count rfl hwt.len ⟨j', hbc'⟩ hoccN
      (index_from_value hash extract t v) hid
    have hprobe' := place_probe hash extract t v t.bucket_count rfl hwt.len
      ⟨j', hbc'⟩ hoccN hwt.probe
    obtain ⟨f1, f2, f3, f4⟩ := place_fields t v (index_from_value hash extract t v)
    refine ⟨⟨by rw [p7, f1], by rw [f1]; exact hwt.pow, ?_, by rw [f2, f1]; exact hwt.min_eq,
      by rw [f3, f1]; exact hwt.max_eq, ?_, hprobe', ?_⟩, f4, p5, f1⟩
    · rw [f4, p4, hwt.size_occ]
    · rw [f4, f3]
      omega
    · intro k
      rw [p5 k]
      by_cases he : extract v = k
      · rw [if_pos he, ← he, habt]
      · rw [if_neg he]
        have := hwt.uniq k
        omega
  by_cases hmax : s.size = s.max_size
  · -- growth: rehash to twice the bucket count, then place
    rw [show f + 2 = (f + 1) + 1 from rfl]
    unfold insert_impl
    rw [if_pos hmax]
    have hins : ∀ (t : kernel V) (w : V), t.size ≠ t.max_size →
        (fun t w => (insert_impl hash extract (f + 1) t w
          (index_from_value hash extract t w)).1) t w
        = (place t w (index_from_value hash extract t w)).1 := by
      intro t w hne
      show (insert_impl hash extract (f + 1) t w
        (index_from_value hash extract t w)).1 = _
      unfold insert_impl
      rw [if_neg hne]
    have hload : occ_count s ≤ 7 * (2 * s.bucket_count) / 10 := by
      rw [← hwf.size_occ]
      have := hwf.size_le
      rw [hwf.max_eq] at this
      omega
    obtain ⟨c1, c2, c3, c4, c5, c6, c7, c8⟩ := rehash_with_spec hash extract
      (fun t w => (insert_impl hash extract (f + 1) t w
        (index_from_value hash extract t w)).1)
      s (2 * s.bucket_count) (j + 1) (by rw [hbc]; ring) (by omega) hins hload
    set s' := rehash_with
      (fun t w => (insert_impl hash extract (f + 1) t w
        (index_from_value hash extract t w)).1)
      s (2 * s.bucket_count) with hs'
    have hsz' : s'.size = s.size := by
      rw [c5, c6, hwf.size_occ]
    have harith : s'.size ≤ s'.max_size ∧ s'.size < s'.max_size := by
      rw [hsz']
      exact grow_margin s.bucket_count s.size s'.max_size hcpos c4
        (by rw [← hwf.max_eq]; exact hwf.size_le)
    have hwf' : WF hash extract s' := by
      refine ⟨by rw [c1]; exact c2, ⟨j + 1, by omega, by rw [c1, hbc]; ring⟩,
        c5, by rw [c3, c1], by rw [c4, c1], harith.1, c8, ?_⟩
      intro k
      rw [c7 k]
      exact hwf.uniq k
    have habs' : key_count extract s' (extract v) = 0 := by
      rw [c7]
      exact habs
    have hlt' : s'.size < s'.max_size := harith.2
    have hne' : s'.size ≠ s'.max_size := by omega
    have hunf : insert_impl hash extract (f + 1) s' v
        (index_from_value hash extract s' v)
        = place s' v (index_from_value hash extract s' v) := by
      unfold insert_impl
      rw [if_neg hne']
    rw [hunf]
    obtain ⟨w1, w2, w3, w4⟩ := hplace s' hwf' hlt' habs'
    refine ⟨w1, ?_, ?_, ?_⟩
    · rw [w2, c5, c6, ← hwf.size_occ]
    · intro k
      rw [w3 k, c7 k]
    · rw [if_pos hmax, w4, c1]
  · -- no growth: direct placement
    have hlt : s.size < s.max_size := by
      have := hwf.size_le
      omega
    rw [show f + 2 = (f + 1) + 1 from rfl]
    unfold insert_impl
    rw [if_neg hmax]
    obtain ⟨w1, w2, w3, w4⟩ := hplace s hwf hlt habs
    exact ⟨w1, w2, w3, by rw [if_neg hmax, w4]⟩

/-- Public insert on a present key: no mutation, the existing position is
returned with the "not inserted" flag. -/
theorem insert_found_spec {V K : Type} (hash : K → Nat) (extract : V → K)
    [DecidableEq K] (s : kernel V) (v : V)
    (hwf : WF hash extract s)
    (hc : contains_key extract s (extract v) = true) :
    ∃ jv w, insert hash extract s v = (s, jv, false) ∧
      slot s jv = some w ∧ extract w = extract v ∧ jv < s.bucket_count := by
  obtain ⟨j, w, hscan, hw, hk⟩ := find_present hash extract s (extract v) hwf hc
  have hjN : j < s.bucket_count := by
    have := lt_length_of_getD s.buckets j w hw
    have := hwf.len
    omega
  have hidx : index_from_value hash extract s v
      = index_from_key hash s (extract v) := rfl
  have hres : find_impl hash extract s (extract v)
      (index_from_value hash extract s v) = j := by
    unfold find_impl
    rw [hidx, hscan]
    rfl
  have hne : ¬ (find_impl hash extract s (extract v)
      (index_from_value hash extract s v) = s.buckets.length) := by
    rw [hres, hwf.len]
    omega
  refine ⟨j, w, ?_, hw, hk, hjN⟩
  unfold insert
  rw [if_neg hne, hres]

/-- Public insert on a fresh key (below the 64-bit overflow regime): the
entry is placed, `size` grows by one, well-formedness is preserved, and
the bucket count doubles exactly when the insert hit the high-water
mark. -/
theorem insert_new_spec {V K : Type} (hash : K → Nat) (extract : V → K)
    [DecidableEq K] (s : kernel V) (v : V)
    (hwf : WF hash extract s) (hbound : s.bucket_count ≤ 2 ^ 62)
    (hc : contains_key extract s (extract v) = false) :
    ∃ r p, insert hash extract s v = (r, p, true) ∧
      WF hash extract r ∧ r.size = s.size + 1 ∧
      (∀ k, key_count extract r k
        = key_count extract s k + (if extract v = k then 1 else 0)) ∧
      r.bucket_count
        = (if s.size = s.max_size then 2 * s.bucket_count else s.bucket_count) := by
  have habs : key_count extract s (extract v) = 0 :=
    (contains_key_false extract s (extract v)).mp hc
  have hscan : ∀ i, scan extract s.bucket_count s (extract v) i = none :=
    scan_absent extract s (extract v)
      (absent_no_slot extract s (extract v) hc) s.bucket_count
  have hres : find_impl hash extract s (extract v)
      (index_from_value hash extract s v) = s.bucket_count := by
    unfold find_impl
    rw [hscan]
    rfl
  have heq : find_impl hash extract s (extract v)
      (index_from_value hash extract s v) = s.buckets.length := by
    rw [hres, hwf.len]
  obtain ⟨w1, w2, w3, w4⟩ := insert_impl_spec hash extract s v
    (s.bucket_count + 1) hwf hbound habs
  refine ⟨(insert_impl hash extract (s.bucket_count + 3) s v
      (index_from_value hash extract s v)).1,
    (insert_impl hash extract (s.bucket_count + 3) s v
      (index_from_value hash extract s v)).2, ?_, w1, w2, w3, w4⟩
  unfold insert
  rw [if_pos heq]

/-! ## Erase: the repair pass -/

theorem cd_inj (N x a b : Nat) (hx : x < N) (ha : a < N) (hb : b < N)
    (h : cd N x a = cd N x b) : a = b := by
  have h1 := cd_shot N x a hx ha
  have h2 := cd_shot N x b hx hb
  rw [h] at h1
  rw [h1] at h2
  exact h2

/-- The move condition of the repair pass holds iff the gap lies on the
circular walk from the ideal index of the entry to its current slot. -/
theorem move_cond_iff_back (N g i h : Nat) (hN : 0 < N) (hg : g < N)
    (hi : i < N) (hh : h < N) (hgi : g ≠ i) :
    move_cond g i h ↔ cd N h g < cd N h i := by
  unfold move_cond
  rw [cd_eq N h g hh hg, cd_eq N h i hh hi]
  split_ifs <;> omega

/-- The move condition holds iff the ideal index lies outside the open
circular arc `(g, i]`. -/
theorem move_cond_iff_not_arc (N g i h : Nat) (hN : 0 < N) (hg : g < N)
    (hi : i < N) (hh : h < N) (hgi : g ≠ i) :
    move_cond g i h ↔ ¬ (0 < cd N g h ∧ cd N g h ≤ cd N g i) := by
  unfold move_cond
  rw [cd_eq N g h hg hh, cd_eq N g i hg hi]
  split_ifs <;> omega

/-- Unfolding equation of the repair pass at an empty scan cell. -/
theorem repair_loop_none {V K : Type} (hash : K → Nat) (extract : V → K)
    (fuel : Nat) (s : kernel V) (g i : Nat) (hsi : slot s i = none) :
    repair_loop hash extract (fuel + 1) s g i = s := by
  conv_lhs => unfold repair_loop
  rw [hsi]

/-- Unfolding equation of the repair pass at an occupied scan cell. -/
theorem repair_loop_some {V K : Type} (hash : K → Nat) (extract : V → K)
    (fuel : Nat) (s : kernel V) (g i : Nat) (v : V) (hsi : slot s i = some v) :
    repair_loop hash extract (fuel + 1) s g i
      = if move_cond g i (index_from_value hash extract s v) then
          repair_loop hash extract fuel
            { s with buckets := (s.buckets.set g (some v)).set i none }
            i (index_add { s with buckets := (s.buckets.set g (some v)).set i none } i 1)
        else repair_loop hash extract fuel s g (index_add s i 1) := by
  conv_lhs => unfold repair_loop
  rw [hsi]

/-- The repair pass never touches the scalar fields or the vector length. -/
theorem repair_fields {V K : Type} (hash : K → Nat) (extract : V → K) :
    ∀ (fuel : Nat) (s : kernel V) (g i : Nat),
    (repair_loop hash extract fuel s g i).bucket_count = s.bucket_count ∧
    (repair_loop hash extract fuel s g i).size = s.size ∧
    (repair_loop hash extract fuel s g i).min_size = s.min_size ∧
    (repair_loop hash extract fuel s g i).max_size = s.max_size ∧
    (repair_loop hash extract fuel s g i).buckets.length = s.buckets.length := by
  intro fuel
  induction fuel with
  | zero =>
    intro s g i
    exact ⟨rfl, rfl, rfl, rfl, rfl⟩
  | succ f ih =>
    intro s g i
    cases hsi : slot s i with
    | none =>
      rw [repair_loop_none hash extract f s g i hsi]
      exact ⟨rfl, rfl, rfl, rfl, rfl⟩
    | some v =>
      rw [repair_loop_some hash extract f s g i v hsi]
      split_ifs with hmc
      · obtain ⟨c1, c2, c3, c4, c5⟩ := ih
          { s with buckets := (s.buckets.set g (some v)).set i none } i
          (index_add { s with buckets := (s.buckets.set g (some v)).set i none } i 1)
        refine ⟨c1, c2, c3, c4, ?_⟩
        rw [c5]
        show ((s.buckets.set g (some v)).set i none).length = s.buckets.length
        rw [List.length_set, List.length_set]
      · exact ih s g (index_add s i 1)

/-- Characterization of the cells after one backward move. -/
theorem move_slot_char {V : Type} (s : kernel V) (g i : Nat) (v : V)
    (hglen : g < s.buckets.length) (hgi : g ≠ i) :
    ∀ x, slot { s with buckets := (s.buckets.set g (some v)).set i none } x
      = if x = i then none else if x = g then some v else slot s x := by
  intro x
  show ((s.buckets.set g (some v)).set i none).getD x none = _
  by_cases hx : x = i
  · rw [if_pos hx, hx]
    by_cases hil : i < s.buckets.length
    · exact getD_set_self _ i none none (by rw [List.length_set]; exact hil)
    · rw [List.getD_eq_getElem?_getD, List.getElem?_eq_none
        (by rw [List.length_set, List.length_set]; omega)]
      rfl
  · rw [if_neg hx]
    rw [getD_set_ne _ i x none none (fun he => hx he.symm)]
    by_cases hg : x = g
    · rw [if_pos hg, hg]
      exact getD_set_self s.buckets g (some v) none hglen
    · rw [if_neg hg]
      exact getD_set_ne s.buckets g x (some v) none (fun he => hg he.symm)

/-- The repair pass preserves the occupancy count and every per-key count
(it only relocates entries), as long as the tracked gap is an empty cell. -/
theorem repair_counts {V K : Type} (hash : K → Nat) (extract : V → K)
    [DecidableEq K] :
    ∀ (fuel : Nat) (s : kernel V) (g i : Nat),
    g < s.buckets.length → slot s g = none →
    occ_count (repair_loop hash extract fuel s g i) = occ_count s ∧
    (∀ k, key_count extract (repair_loop hash extract fuel s g i) k
        = key_count extract s k) := by
  intro fuel
  induction fuel with
  | zero =>
    intro s g i _ _
    exact ⟨rfl, fun k => rfl⟩
  | succ f ih =>
    intro s g i hglen hge
    cases hsi : slot s i with
    | none =>
      rw [repair_loop_none hash extract f s g i hsi]
      exact ⟨rfl, fun k => rfl⟩
    | some v =>
      rw [repair_loop_some hash extract f s g i v hsi]
      split_ifs with hmc
      · set s' : kernel V :=
          { s with buckets := (s.buckets.set g (some v)).set i none } with hs'
        have hgi : g ≠ i := by
          intro he
          rw [he, hsi] at hge
          exact Option.noConfusion hge
        have hilen : i < s.buckets.length := lt_length_of_getD s.buckets i v hsi
        have hchar := move_slot_char s g i v hglen hgi
        have hilen' : i < s'.buckets.length := by
          show i < ((s.buckets.set g (some v)).set i none).length
          rw [List.length_set, List.length_set]
          exact hilen
        have hsi' : slot s' i = none := by
          rw [hchar i, if_pos rfl]
        -- counts across the two set operations
        have hocc1 : (s.buckets.set g (some v)).countP (fun o => o.isSome)
            = s.buckets.countP (fun o => o.isSome) + 1 := by
          have := countP_set (fun o : Option V => o.isSome) s.buckets g (some v) none hglen
          rw [show s.buckets.getD g none = none from hge] at this
          simp at this
          omega
        have hocc2 : occ_count s' = occ_count s := by
          show ((s.buckets.set g (some v)).set i none).countP (fun o => o.isSome)
            = s.buckets.countP (fun o => o.isSome)
          have h2 := countP_set (fun o : Option V => o.isSome)
            (s.buckets.set g (some v)) i none none
            (by rw [List.length_set]; exact hilen)
          have hgi2 : (s.buckets.set g (some v)).getD i none = slot s i := by
            exact getD_set_ne s.buckets g i (some v) none hgi
          rw [hgi2, hsi] at h2
          simp at h2
          omega
        have hkey2 : ∀ k, key_count extract s' k = key_count extract s k := by
          intro k
          show ((s.buckets.set g (some v)).set i none).countP (key_pred extract k)
            = s.buckets.countP (key_pred extract k)
          have h1 := countP_set (key_pred extract k) s.buckets g (some v) none hglen
          rw [show s.buckets.getD g none = none from hge] at h1
          have hkn : key_pred extract k (none : Option V) = false := rfl
          rw [hkn] at h1
          have h2 := countP_set (key_pred extract k)
            (s.buckets.set g (some v)) i none none
            (by rw [List.length_set]; exact hilen)
          have hgi2 : (s.buckets.set g (some v)).getD i none = slot s i := by
            exact getD_set_ne s.buckets g i (some v) none hgi
          rw [hgi2, hsi, hkn] at h2
          simp only [Bool.false_eq_true, if_false, Nat.add_zero] at h1 h2
          omega
        obtain ⟨c1, c2⟩ := ih s' i (index_add s' i 1) hilen' hsi'
        refine ⟨by rw [c1, hocc2], fun k => by rw [c2 k, hkey2 k]⟩
      · exact ih s g (index_add s i 1) hglen hge

theorem probeInv_to_M {V K : Type} (hash : K → Nat) (extract : V → K)
    (N : Nat) (s : kernel V) (hbc : s.bucket_count = N)
    (hpow : ∃ j, N = 2 ^ j) (h : ProbeInv hash extract s) :
    ProbeInvM hash extract N s := by
  intro i v hv t ht
  have he : index_from_value hash extract s v = hash (extract v) % N := by
    rw [index_from_value_eq hash extract s v (by rw [hbc]; exact hpow), hbc]
  have := h i v hv t (by rw [hbc, he]; exact ht)
  rw [he, hbc] at this
  exact this

theorem probeInv_of_M {V K : Type} (hash : K → Nat) (extract : V → K)
    (N : Nat) (s : kernel V) (hbc : s.bucket_count = N)
    (hpow : ∃ j, N = 2 ^ j) (h : ProbeInvM hash extract N s) :
    ProbeInv hash extract s := by
  intro i v hv t ht
  have he : index_from_value hash extract s v = hash (extract v) % N := by
    rw [index_from_value_eq hash extract s v (by rw [hbc]; exact hpow), hbc]
  rw [he, hbc] at ht ⊢
  exact h i v hv t ht

/-- Main lemma on the repair pass of `kernel::erase`: starting from the
state right after the removal (gap `g` empty, scan at distance `d` past
the gap, some untouched empty cell `E` bounding the walk), with the
scanned-and-kept entries rooted inside `(g, scan)` and every probe arc
occupied except possibly at `g`, the pass terminates at an empty cell and
re-establishes the probe-run invariant. -/
theorem repair_probe {V K : Type} (hash : K → Nat) (extract : V → K)
    (N : Nat) (hpow : ∃ j, N = 2 ^ j) :
    ∀ (fuel : Nat) (s : kernel V) (g d E : Nat),
    s.bucket_count = N → s.buckets.length = N →
    g < N → E < N → E ≠ g → 1 ≤ d → d ≤ N →
    slot s g = none → slot s E = none →
    cd N ((g + d) % N) E < fuel →
    (∀ jj v, slot s jj = some v → 0 < cd N g jj → cd N g jj < d →
      0 < cd N g (hash (extract v) % N) ∧
      cd N g (hash (extract v) % N) ≤ cd N g jj) →
    (∀ jj v, slot s jj = some v → ∀ t, t < cd N (hash (extract v) % N) jj →
      (slot s ((hash (extract v) % N + t) % N)).isSome = true ∨
      (hash (extract v) % N + t) % N = g) →
    ProbeInvM hash extract N (repair_loop hash extract fuel s g ((g + d) % N)) := by
  have hN : 0 < N := by
    obtain ⟨j, hj⟩ := hpow
    rw [hj]
    exact Nat.pos_pow_of_pos j (by omega)
  intro fuel
  induction fuel with
  | zero =>
    intro s g d E _ _ _ _ _ _ _ _ _ hfuel _ _
    omega
  | succ f ih =>
    intro s g d E hbc hlen hgN hEN hEg hd1 hdN hsg hsE hfuel hII hI
    set i := (g + d) % N with hi
    have hiN : i < N := Nat.mod_lt _ hN
    cases hsi : slot s i with
    | none =>
      rw [repair_loop_none hash extract f s g i hsi]
      intro j v hj t ht
      have hhN : hash (extract v) % N < N := Nat.mod_lt _ hN
      have hjN : j < N := by
        have := lt_length_of_getD s.buckets j v hj
        omega
      rcases hI j v hj t ht with hocc | hpg
      · exact hocc
      · exfalso
        have htN : t < N := lt_trans ht (cd_lt N _ j hN)
        have hteq : t = cd N (hash (extract v) % N) g :=
          cd_of_hit N (hash (extract v) % N) g t hhN htN hpg
        have hjg : j ≠ g := by
          intro he
          rw [he, hsg] at hj
          exact Option.noConfusion hj
        have hcgj : 0 < cd N g j := cd_pos_of_ne N g j hN hgN hjN (Ne.symm hjg)
        have hcgjlt : cd N g j < N := cd_lt N g j hN
        have hstepA : d ≤ cd N g j := by
          by_contra hc
          push_neg at hc
          obtain ⟨ha1, ha2⟩ := hII j v hj hcgj hc
          have hgh : g ≠ hash (extract v) % N := by
            intro he
            rw [← he, cd_self] at ha1
            omega
          have hanti := cd_antisymm N (hash (extract v) % N) g hhN hgN
            (fun he => hgh he.symm)
          have htri := cd_triangle N (hash (extract v) % N) g j hhN hgN hjN
          rw [mod_add_two N _ _ (cd_lt N _ g hN) (cd_lt N g j hN)] at htri
          rw [← hteq] at htri hanti
          split_ifs at htri <;> omega
        have hdltN : d < N := by omega
        have hcgi : cd N g i = d := by
          rw [hi]
          exact cd_offset N g d hgN hdltN
        have htri2 := cd_triangle N (hash (extract v) % N) g j hhN hgN hjN
        rw [mod_add_two N _ _ (cd_lt N _ g hN) (cd_lt N g j hN), ← hteq] at htri2
        have hcdj : cd N (hash (extract v) % N) j < N := cd_lt N _ j hN
        have hnw : cd N (hash (extract v) % N) j = t + cd N g j := by
          split_ifs at htri2 with hw
          · omega
          · exact htri2
        have htri3 := cd_triangle N (hash (extract v) % N) g i hhN hgN hiN
        rw [mod_add_two N _ _ (cd_lt N _ g hN) (cd_lt N g i hN), ← hteq, hcgi] at htri3
        have hE1 : cd N (hash (extract v) % N) i = t + d := by
          split_ifs at htri3 with hw
          · omega
          · exact htri3
        have hij : i ≠ j := by
          intro he
          rw [he, hj] at hsi
          exact Option.noConfusion hsi
        have hlt2 : cd N (hash (extract v) % N) i < cd N (hash (extract v) % N) j := by
          have hne2 : cd N (hash (extract v) % N) i ≠ cd N (hash (extract v) % N) j :=
            fun he => hij (cd_inj N (hash (extract v) % N) i j hhN hiN hjN he)
          omega
        rcases hI j v hj (cd N (hash (extract v) % N) i) hlt2 with hocc2 | hpg2
        · rw [cd_shot N (hash (extract v) % N) i hhN hiN, hsi] at hocc2
          exact Bool.noConfusion hocc2
        · rw [cd_shot N (hash (extract v) % N) i hhN hiN] at hpg2
          have hinec : i ≠ g := by
            intro he
            rw [he, cd_self] at hcgi
            omega
          exact hinec hpg2
    | some v =>
      rw [repair_loop_some hash extract f s g i v hsi]
      have hgi : g ≠ i := by
        intro he
        rw [he, hsi] at hsg
        exact Option.noConfusion hsg
      have hh' : hash (extract v) % N < N := Nat.mod_lt _ hN
      have hifv : index_from_value hash extract s v = hash (extract v) % N := by
        rw [index_from_value_eq hash extract s v (by rw [hbc]; exact hpow), hbc]
      rw [hifv]
      have hiE : i ≠ E := by
        intro he
        rw [he, hsE] at hsi
        exact Option.noConfusion hsi
      have hstepE := cd_step N i E hN hiN hEN hiE
      split_ifs with hmc
      · -- the entry at the scan index moves back into the gap
        set s' : kernel V :=
          { s with buckets := (s.buckets.set g (some v)).set i none } with hs'
        have hglen : g < s.buckets.length := by omega
        have hchar := move_slot_char s g i v hglen hgi
        have hmcb : cd N (hash (extract v) % N) g < cd N (hash (extract v) % N) i :=
          (move_cond_iff_back N g i (hash (extract v) % N) hN hgN hiN hh' hgi).mp hmc
        have hbc' : s'.bucket_count = N := hbc
        have hlen' : s'.buckets.length = N := by
          show ((s.buckets.set g (some v)).set i none).length = N
          rw [List.length_set, List.length_set]
          exact hlen
        have hadd : index_add s' i 1 = (i + 1) % N := by
          rw [index_add_eq s' i 1 (by rw [hbc']; exact hpow), hbc']
        rw [hadd]
        have hsg' : slot s' i = none := by
          rw [hchar i, if_pos rfl]
        have hsE' : slot s' E = none := by
          rw [hchar E, if_neg (Ne.symm hiE), if_neg hEg]
          exact hsE
        have hI' : ∀ jj w, slot s' jj = some w →
            ∀ t, t < cd N (hash (extract w) % N) jj →
            (slot s' ((hash (extract w) % N + t) % N)).isSome = true ∨
            (hash (extract w) % N + t) % N = i := by
          intro jj w hjj t ht
          rw [hchar jj] at hjj
          by_cases hj1 : jj = i
          · rw [if_pos hj1] at hjj
            exact Option.noConfusion hjj
          rw [if_neg hj1] at hjj
          by_cases hj2 : jj = g
          · rw [if_pos hj2] at hjj
            injection hjj with hjj
            subst hjj
            rw [hj2] at ht
            rcases hI i v hsi t (lt_trans ht hmcb) with hocc | hpg
            · by_cases hpi : (hash (extract v) % N + t) % N = i
              · exact Or.inr hpi
              · left
                rw [hchar _, if_neg hpi]
                by_cases hpg2 : (hash (extract v) % N + t) % N = g
                · rw [if_pos hpg2]
                  rfl
                · rw [if_neg hpg2]
                  exact hocc
            · left
              have hpi : (hash (extract v) % N + t) % N ≠ i := by
                rw [hpg]
                exact hgi
              rw [hchar _, if_neg hpi, if_pos hpg]
              rfl
          · rw [if_neg hj2] at hjj
            rcases hI jj w hjj t ht with hocc | hpg
            · by_cases hpi : (hash (extract w) % N + t) % N = i
              · exact Or.inr hpi
              · left
                rw [hchar _, if_neg hpi]
                by_cases hpg2 : (hash (extract w) % N + t) % N = g
                · rw [if_pos hpg2]
                  rfl
                · rw [if_neg hpg2]
                  exact hocc
            · left
              have hpi : (hash (extract w) % N + t) % N ≠ i := by
                rw [hpg]
                exact hgi
              rw [hchar _, if_neg hpi, if_pos hpg]
              rfl
        exact ih s' i 1 E hbc' hlen' hiN hEN (Ne.symm hiE) (Nat.le_refl 1)
          (by omega) hsg' hsE' (by omega)
          (by
            intro jj w _ h1 h2
            omega)
          hI'
      · -- the entry stays; the scan advances
        have harc : 0 < cd N g (hash (extract v) % N) ∧
            cd N g (hash (extract v) % N) ≤ cd N g i := by
          by_contra hc
          exact hmc ((move_cond_iff_not_arc N g i (hash (extract v) % N)
            hN hgN hiN hh' hgi).mpr hc)
        have hdlt : d < N := by
          by_contra hc
          push_neg at hc
          have hdn : d = N := by omega
          have : i = g := by
            rw [hi, hdn, Nat.add_mod_right, Nat.mod_eq_of_lt hgN]
          rw [this, hsg] at hsi
          exact Option.noConfusion hsi
        have hcgi : cd N g i = d := by
          rw [hi]
          exact cd_offset N g d hgN hdlt
        have hadd2 : index_add s i 1 = (g + (d + 1)) % N := by
          rw [index_add_eq s i 1 (by rw [hbc]; exact hpow), hbc, hi,
            Nat.mod_add_mod, Nat.add_assoc]
        rw [hadd2]
        have hfuel2 : cd N ((g + (d + 1)) % N) E < f := by
          have he : (g + (d + 1)) % N = (i + 1) % N := by
            rw [hi, Nat.mod_add_mod, Nat.add_assoc]
          rw [he]
          omega
        have hII2 : ∀ jj w, slot s jj = some w → 0 < cd N g jj →
            cd N g jj < d + 1 →
            0 < cd N g (hash (extract w) % N) ∧
            cd N g (hash (extract w) % N) ≤ cd N g jj := by
          intro jj w hjj h1 h2
          by_cases hjd : cd N g jj = d
          · have hjjN : jj < N := by
              have := lt_length_of_getD s.buckets jj w hjj
              omega
            have hji : jj = i := by
              have h3 := cd_shot N g jj hgN hjjN
              rw [hjd] at h3
              rw [← h3, hi]
            subst hji
            rw [hsi] at hjj
            injection hjj with hjj
            subst hjj
            rw [hjd, ← hcgi]
            exact harc
          · exact hII jj w hjj h1 (by omega)
        exact ih s g (d + 1) E hbc hlen hgN hEN hEg (by omega) (by omega)
          hsg hsE hfuel2 hII2 hI

/-! ## Erase: end-to-end specifications -/

theorem rehash_succ {V K : Type} (hash : K → Nat) (extract : V → K)
    (f : Nat) (s : kernel V) (count : Nat) :
    rehash hash extract (f + 1) s count
      = rehash_with (fun t w => (insert_impl hash extract f t w
          (index_from_value hash extract t w)).1) s count := by
  conv_lhs => unfold rehash

theorem insert_impl_ins {V K : Type} (hash : K → Nat) (extract : V → K)
    (f : Nat) :
    ∀ (t : kernel V) (w : V), t.size ≠ t.max_size →
    (fun t w => (insert_impl hash extract (f + 1) t w
      (index_from_value hash extract t w)).1) t w
      = (place t w (index_from_value hash extract t w)).1 := by
  intro t w hne
  show (insert_impl hash extract (f + 1) t w
    (index_from_value hash extract t w)).1 = _
  conv_lhs => unfold insert_impl
  rw [if_neg hne]

theorem erase_none_eq {V K : Type} (hash : K → Nat) (extract : V → K)
    [DecidableEq K] (s : kernel V) (k : K)
    (hscan : scan extract s.bucket_count s k (index_from_key hash s k) = none) :
    erase hash extract s k
      = if s.size < s.min_size ∧ 16 < s.size then
          (rehash hash extract (s.bucket_count + 3) s (s.bucket_count / 2), 0)
        else (s, 0) := by
  conv_lhs => unfold erase
  rw [hscan]

theorem erase_some_eq {V K : Type} (hash : K → Nat) (extract : V → K)
    [DecidableEq K] (s : kernel V) (k : K) (g0 : Nat)
    (hscan : scan extract s.bucket_count s k (index_from_key hash s k) = some g0) :
    ∀ s2 : kernel V,
    s2 = repair_loop hash extract s.bucket_count
      { s with buckets := s.buckets.set g0 none, size := s.size - 1 } g0
      (index_add { s with buckets := s.buckets.set g0 none, size := s.size - 1 } g0 1) →
    erase hash extract s k
      = if s2.size < s2.min_size ∧ 16 < s2.size then
          (rehash hash extract (s2.bucket_count + 3) s2 (s2.bucket_count / 2), 1)
        else (s2, 1) := by
  intro s2 h2
  subst h2
  conv_lhs => unfold erase
  rw [hscan]

/-- Floor arithmetic of the shrink trigger: a size under the old low-water
mark fits under the high-water mark of the halved capacity. -/
theorem shrink_margin (x sz mn mx : Nat) (hmn : mn = 3 * (2 * x) / 10)
    (hmx : mx = 7 * x / 10) (h : sz < mn) : sz ≤ mx := by
  omega

theorem two_pow_div_two (j : Nat) (hj : 1 ≤ j) : 2 ^ j / 2 = 2 ^ (j - 1) := by
  have : 2 ^ j = 2 ^ (j - 1) * 2 := by
    rw [← Nat.pow_succ]
    congr 1
    omega
  omega

/-- The shrink rehash performed by `erase` preserves the live entries and
well-formedness. -/
theorem shrink_rehash_spec {V K : Type} (hash : K → Nat) (extract : V → K)
    [DecidableEq K] (s2 : kernel V) (hwf2 : WF hash extract s2)
    (hcond : s2.size < s2.min_size ∧ 16 < s2.size) :
    WF hash extract
      (rehash hash extract (s2.bucket_count + 3) s2 (s2.bucket_count / 2)) ∧
    (rehash hash extract (s2.bucket_count + 3) s2 (s2.bucket_count / 2)).size
      = s2.size ∧
    (∀ k', key_count extract
      (rehash hash extract (s2.bucket_count + 3) s2 (s2.bucket_count / 2)) k'
      = key_count extract s2 k') ∧
    (rehash hash extract (s2.bucket_count + 3) s2 (s2.bucket_count / 2)).bucket_count
      = s2.bucket_count / 2 := by
  obtain ⟨j, hj63, hbc⟩ := hwf2.pow
  have hbc60 : 60 ≤ s2.bucket_count := by
    have h1 := hwf2.min_eq
    omega
  have hj1 : 1 ≤ j := by
    by_contra hc
    push_neg at hc
    interval_cases j
    omega
  have hhalf : s2.bucket_count / 2 = 2 ^ (j - 1) := by
    rw [hbc]
    exact two_pow_div_two j hj1
  have hp : (2 : Nat) ^ j = 2 * 2 ^ (j - 1) := by
    have h2 := Nat.pow_succ 2 (j - 1)
    rw [Nat.succ_eq_add_one, show j - 1 + 1 = j by omega] at h2
    omega
  have hbceven : s2.bucket_count = 2 * (s2.bucket_count / 2) := by
    rw [hbc, two_pow_div_two j hj1]
    omega
  have hmn2 : s2.min_size = 3 * (2 * (s2.bucket_count / 2)) / 10 := by
    rw [hwf2.min_eq, ← hbceven]
  have hrw := rehash_succ hash extract (s2.bucket_count + 2) s2 (s2.bucket_count / 2)
  have hload : occ_count s2 ≤ 7 * (s2.bucket_count / 2) / 10 :=
    shrink_margin (s2.bucket_count / 2) (occ_count s2) s2.min_size
      (7 * (s2.bucket_count / 2) / 10) hmn2 rfl
      (by rw [← hwf2.size_occ]; exact hcond.1)
  obtain ⟨c1, c2, c3, c4, c5, c6, c7, c8⟩ := rehash_with_spec hash extract
    (fun t w => (insert_impl hash extract (s2.bucket_count + 2) t w
      (index_from_value hash extract t w)).1)
    s2 (s2.bucket_count / 2) (j - 1) hhalf (by omega)
    (insert_impl_ins hash extract (s2.bucket_count + 1)) hload
  rw [show s2.bucket_count + 3 = (s2.bucket_count + 2) + 1 from rfl, hrw]
  refine ⟨⟨by rw [c1]; exact c2, ⟨j - 1, by omega, by rw [c1, hhalf]⟩, c5,
    by rw [c3, c1], by rw [c4, c1], ?_, c8, ?_⟩, ?_, ?_, c1⟩
  · rw [c5, c6, c4]
    exact hload
  · intro k'
    rw [c7 k']
    exact hwf2.uniq k'
  · rw [c5, c6, hwf2.size_occ]
  · intro k'
    exact c7 k'

/-- Erase of an absent key: returns 0 and preserves the live entries;
the container is entirely unchanged whenever the state sits at or above
the low-water mark (or at most 16 entries) — otherwise the shrink check
at the end of `erase` still fires. -/
theorem erase_absent_spec {V K : Type} (hash : K → Nat) (extract : V → K)
    [DecidableEq K] (s : kernel V) (k : K)
    (hwf : WF hash extract s) (hc : contains_key extract s k = false) :
    (erase hash extract s k).2 = 0 ∧
    WF hash extract (erase hash extract s k).1 ∧
    (erase hash extract s k).1.size = s.size ∧
    (∀ k', key_count extract (erase hash extract s k).1 k'
        = key_count extract s k') ∧
    (s.min_size ≤ s.size ∨ s.size ≤ 16 → (erase hash extract s k).1 = s) := by
  have hscan : scan extract s.bucket_count s k (index_from_key hash s k) = none :=
    scan_absent extract s k (absent_no_slot extract s k hc) s.bucket_count _
  rw [erase_none_eq hash extract s k hscan]
  split_ifs with hcond
  · obtain ⟨w1, w2, w3, _⟩ := shrink_rehash_spec hash extract s hwf hcond
    exact ⟨rfl, w1, w2, w3, fun h => by omega⟩
  · exact ⟨rfl, hwf, rfl, fun k' => rfl, fun h => rfl⟩

/-- Erase of a present key: returns 1, removes exactly that key, and
preserves well-formedness (in particular the probe-run invariant holds
after the repair pass, shrink rehash included). -/
theorem erase_present_spec {V K : Type} (hash : K → Nat) (extract : V → K)
    [DecidableEq K] (s : kernel V) (k : K)
    (hwf : WF hash extract s) (hc : contains_key extract s k = true) :
    (erase hash extract s k).2 = 1 ∧
    WF hash extract (erase hash extract s k).1 ∧
    (erase hash extract s k).1.size = s.size - 1 ∧
    key_count extract (erase hash extract s k).1 k = 0 := by
  obtain ⟨j, hj63, hbc⟩ := hwf.pow
  have hN : 0 < s.bucket_count := pow_pos_of s ⟨j, hbc⟩
  set N := s.bucket_count with hNd
  obtain ⟨g0, v0, hscan, hv0, hk0⟩ := find_present hash extract s k hwf hc
  have hg0len : g0 < s.buckets.length := lt_length_of_getD s.buckets g0 v0 hv0
  have hg0N : g0 < N := by
    have := hwf.len
    omega
  -- the state right after the removal
  set s1 : kernel V :=
    { s with buckets := s.buckets.set g0 none, size := s.size - 1 } with hs1
  have hlen1 : s1.buckets.length = N := by
    show (s.buckets.set g0 none).length = N
    rw [List.length_set]
    exact hwf.len
  have hchar1 : ∀ x, slot s1 x = if x = g0 then none else slot s x := by
    intro x
    show (s.buckets.set g0 none).getD x none = _
    by_cases hx : x = g0
    · rw [if_pos hx, hx]
      exact getD_set_self s.buckets g0 none none hg0len
    · rw [if_neg hx]
      exact getD_set_ne s.buckets g0 x none none (fun he => hx he.symm)
  -- an untouched empty cell exists because the table is under max load
  have hoccN : occ_count s < N := by
    have h1 := hwf.size_occ
    have h2 := hwf.size_le
    have h3 := hwf.max_eq
    omega
  obtain ⟨E, hElen, hEP⟩ := countP_lt_length_getD (fun o => o.isSome)
    s.buckets none (by rw [hwf.len]; exact hoccN)
  have hEe : slot s E = none := slot_none_of_isSome_false s E hEP
  have hEN : E < N := by
    have := hwf.len
    omega
  have hEg : E ≠ g0 := by
    intro he
    rw [he, hv0] at hEe
    exact Option.noConfusion hEe
  have hsg1 : slot s1 g0 = none := by
    rw [hchar1 g0, if_pos rfl]
  have hsE1 : slot s1 E = none := by
    rw [hchar1 E, if_neg hEg]
    exact hEe
  -- counts after removal
  have hocc1 : occ_count s1 = occ_count s - 1 := by
    show (s.buckets.set g0 none).countP (fun o => o.isSome)
      = s.buckets.countP (fun o => o.isSome) - 1
    have h2 := countP_set (fun o : Option V => o.isSome) s.buckets g0 none none hg0len
    rw [show s.buckets.getD g0 none = some v0 from hv0] at h2
    simp at h2
    omega
  have hocc_pos : 1 ≤ occ_count s := by
    show 1 ≤ s.buckets.countP (fun o => o.isSome)
    exact one_le_countP_getD (fun o => o.isSome) s.buckets none g0 hg0len
      (by rw [show s.buckets.getD g0 none = some v0 from hv0]; rfl)
  have hkey1 : key_count extract s1 k = key_count extract s k - 1 := by
    show (s.buckets.set g0 none).countP (key_pred extract k)
      = s.buckets.countP (key_pred extract k) - 1
    have h2 := countP_set (key_pred extract k) s.buckets g0 none none hg0len
    rw [show s.buckets.getD g0 none = some v0 from hv0] at h2
    have hkv : key_pred extract k (some v0) = true := by
      simp [key_pred, hk0]
    rw [hkv] at h2
    have hkn : key_pred extract k (none : Option V) = false := rfl
    rw [hkn] at h2
    simp at h2
    omega
  have hkey1' : ∀ k', key_count extract s1 k' ≤ key_count extract s k' := by
    intro k'
    show (s.buckets.set g0 none).countP (key_pred extract k')
      ≤ s.buckets.countP (key_pred extract k')
    have h2 := countP_set (key_pred extract k') s.buckets g0 none none hg0len
    have hkn : key_pred extract k' (none : Option V) = false := rfl
    rw [hkn] at h2
    simp at h2
    omega
  -- the repair pass
  have hpow1 : ∃ jj, s1.bucket_count = 2 ^ jj := ⟨j, by show N = 2 ^ j; exact hbc⟩
  have hadd1 : index_add s1 g0 1 = (g0 + 1) % N := by
    rw [index_add_eq s1 g0 1 hpow1]
  set s2 := repair_loop hash extract s.bucket_count s1 g0 (index_add s1 g0 1) with hs2
  obtain ⟨r1, r2, r3, r4, r5⟩ := repair_fields hash extract s.bucket_count s1 g0
    (index_add s1 g0 1)
  obtain ⟨rc1, rc2⟩ := repair_counts hash extract s.bucket_count s1 g0
    (index_add s1 g0 1) (by omega) hsg1
  have hprobe2 : ProbeInvM hash extract N s2 := by
    rw [hs2, hadd1]
    have hMs := probeInv_to_M hash extract N s rfl ⟨j, hbc⟩ hwf.probe
    exact repair_probe hash extract N ⟨j, hbc⟩ s.bucket_count s1 g0 1 E
      rfl hlen1 hg0N hEN hEg (Nat.le_refl 1) (by omega) hsg1 hsE1
      (by
        show cd N ((g0 + 1) % N) E < N
        exact cd_lt N _ E hN)
      (by
        intro jj w _ h1 h2
        omega)
      (by
        intro jj w hjj t ht
        rw [hchar1 jj] at hjj
        by_cases hj1 : jj = g0
        · rw [if_pos hj1] at hjj
          exact Option.noConfusion hjj
        · rw [if_neg hj1] at hjj
          have := hMs jj w hjj t ht
          by_cases hp : (hash (extract w) % N + t) % N = g0
          · exact Or.inr hp
          · left
            rw [hchar1 _, if_neg hp]
            exact this)
  have hwf2 : WF hash extract s2 := by
    refine ⟨by rw [r5, hlen1, r1], by rw [r1]; exact ⟨j, hj63, hbc⟩, ?_,
      by rw [r3, r1]; exact hwf.min_eq, by rw [r4, r1]; exact hwf.max_eq, ?_,
      probeInv_of_M hash extract N s2 r1 ⟨j, hbc⟩ hprobe2, ?_⟩
    · rw [r2, rc1, hocc1]
      show s1.size = _
      rw [hs1]
      show s.size - 1 = _
      rw [hwf.size_occ]
    · rw [r2]
      show s1.size ≤ s2.max_size
      rw [r4]
      show s.size - 1 ≤ s1.max_size
      show s.size - 1 ≤ s.max_size
      have := hwf.size_le
      omega
    · intro k'
      rw [rc2 k']
      exact le_trans (hkey1' k') (hwf.uniq k')
  have hkey2 : key_count extract s2 k = 0 := by
    rw [rc2 k, hkey1]
    have h1 := (contains_key_iff extract s k).mp hc
    have h2 := hwf.uniq k
    omega
  have hsize2 : s2.size = s.size - 1 := r2
  rw [erase_some_eq hash extract s k g0 hscan s2 hs2]
  split_ifs with hcond
  · obtain ⟨w1, w2, w3, _⟩ := shrink_rehash_spec hash extract s2 hwf2 hcond
    refine ⟨rfl, w1, by rw [w2, hsize2], by rw [w3 k, hkey2]⟩
  · exact ⟨rfl, hwf2, hsize2, hkey2⟩

/-! ## Claim-level helpers and concrete states -/

theorem uniq_pairs {V K : Type} (extract : V → K) [DecidableEq K]
    (s : kernel V) (hu : ∀ k, key_count extract s k ≤ 1) :
    ∀ i j vi vj, slot s i = some vi → slot s j = some vj →
    extract vi = extract vj → i = j := by
  intro i j vi vj hvi hvj hee
  by_contra hij
  have hi : i < s.buckets.length := lt_length_of_getD s.buckets i vi hvi
  have hj : j < s.buckets.length := lt_length_of_getD s.buckets j vj hvj
  have hpi : key_pred extract (extract vi) (s.buckets.getD i none) = true :=
    (key_pred_slot_iff extract (extract vi) _).mpr ⟨vi, hvi, rfl⟩
  have hpj : key_pred extract (extract vi) (s.buckets.getD j none) = true :=
    (key_pred_slot_iff extract (extract vi) _).mpr ⟨vj, hvj, hee.symm⟩
  have := two_le_countP_getD (key_pred extract (extract vi)) s.buckets none
    i j hij hi hj hpi hpj
  have := hu (extract vi)
  rw [key_count] at this
  omega

theorem find_spec_present {V K : Type} (hash : K → Nat) (extract : V → K)
    [DecidableEq K] (s : kernel V) (k : K)
    (hwf : WF hash extract s) (hc : contains_key extract s k = true) :
    find hash extract s k < s.bucket_count ∧
    ∃ w, slot s (find hash extract s k) = some w ∧ extract w = k := by
  obtain ⟨j, w, hscan, hw, hk⟩ := find_present hash extract s k hwf hc
  have hjN : j < s.bucket_count := by
    have := lt_length_of_getD s.buckets j w hw
    have := hwf.len
    omega
  have hfind : find hash extract s k = j := by
    unfold find find_impl
    rw [hscan]
    rfl
  rw [hfind]
  exact ⟨hjN, w, hw, hk⟩

theorem find_spec_absent {V K : Type} (hash : K → Nat) (extract : V → K)
    [DecidableEq K] (s : kernel V) (k : K)
    (hc : contains_key extract s k = false) :
    find hash extract s k = s.bucket_count :=
  find_impl_absent hash extract s k (index_from_key hash s k) hc

/-! ## Claim theorems -/

/-- C1: the claim says every call to `rehash` — including the one performed
by `reserve(n)` — re-places every live entry, preserving `size` and every
key. The code violates it: `reserve(3)` requests `rehash(5)`; the
recursion guard of the sweep `bucket_count_ != count` fires immediately because 5 is not
a power of two, so the sweep breaks after re-placing a single entry. On a
two-entry table, `size` drops from 2 to 1 and key 1 is lost. -/
theorem C1_reserve_loses_entries :
    s_two.size = 2 ∧ contains_key id s_two 1 = true ∧
    (reserve id id s_two 3).size = 1 ∧
    contains_key id (reserve id id s_two 3) 1 = false ∧
    find id id (reserve id id s_two 3) 1
      = (reserve id id s_two 3).bucket_count := by
  decide

/-- C2: after every erase on a well-formed table the probe-run invariant
holds (every live entry reachable from its ideal index through occupied
cells only); the repair pass moves the entry at the scan index `i` into
the gap `g` exactly when its ideal index lies outside the open circular
arc `(g, i]`; and the repair pass stops at the first empty cell. -/
theorem C2_erase_probe_invariant :
    (∀ (V K : Type) (hash : K → Nat) (extract : V → K) [DecidableEq K]
      (s : kernel V) (k : K), WF hash extract s →
      ProbeInv hash extract (erase hash extract s k).1) ∧
    (∀ N g i h, 0 < N → g < N → i < N → h < N → g ≠ i →
      (move_cond g i h ↔ ¬ (0 < cd N g h ∧ cd N g h ≤ cd N g i))) ∧
    (∀ (V K : Type) (hash : K → Nat) (extract : V → K) (fuel : Nat)
      (s : kernel V) (g i : Nat), slot s i = none →
      repair_loop hash extract (fuel + 1) s g i = s) := by
  refine ⟨?_, ?_, ?_⟩
  · intro V K hash extract inst s k hwf
    cases hc : contains_key extract s k with
    | true => exact (erase_present_spec hash extract s k hwf hc).2.1.probe
    | false => exact (erase_absent_spec hash extract s k hwf hc).2.1.probe
  · intro N g i h hN hg hi hh hgi
    exact move_cond_iff_not_arc N g i h hN hg hi hh hgi
  · intro V K hash extract fuel s g i hsi
    exact repair_loop_none hash extract fuel s g i hsi

theorem C2_witness :
    checkWF id id s_two = true ∧
    ProbeInv id id (erase id id s_two 1).1 ∧
    (move_cond 2 5 6 ↔ ¬ (0 < cd 8 2 6 ∧ cd 8 2 6 ≤ cd 8 2 5)) ∧
    repair_loop id id 1 s16 0 2 = s16 :=
  ⟨by decide,
    C2_erase_probe_invariant.1 Nat Nat id id s_two 1
      (checkWF_sound id id s_two (by decide)),
    C2_erase_probe_invariant.2.1 8 2 5 6 (by decide) (by decide) (by decide)
      (by decide) (by decide),
    C2_erase_probe_invariant.2.2 Nat Nat id id 0 s16 0 2 (by decide)⟩

/-- C3: on a well-formed table (below the 64-bit overflow regime), after
`insert(e)` a lookup by the key view of `e` succeeds and lands on an entry
whose key view equals that of `e`; after a subsequent erase of that key the
lookup returns the terminal position `bucket_count`. -/
theorem C3_insert_find_erase_roundtrip (V K : Type) (hash : K → Nat)
    (extract : V → K) [DecidableEq K] (s : kernel V) (v : V)
    (hwf : WF hash extract s) (hbound : s.bucket_count ≤ 2 ^ 62) :
    (find hash extract (insert hash extract s v).1 (extract v)
        < (insert hash extract s v).1.bucket_count ∧
      (∃ w, slot (insert hash extract s v).1
          (find hash extract (insert hash extract s v).1 (extract v)) = some w ∧
        extract w = extract v)) ∧
    find hash extract
        (erase hash extract (insert hash extract s v).1 (extract v)).1 (extract v)
      = (erase hash extract (insert hash extract s v).1 (extract v)).1.bucket_count := by
  cases hc : contains_key extract s (extract v) with
  | true =>
    obtain ⟨jv, w, hins, hw, hk, hjv⟩ := insert_found_spec hash extract s v hwf hc
    rw [hins]
    obtain ⟨f1, f2⟩ := find_spec_present hash extract s (extract v) hwf hc
    refine ⟨⟨f1, f2⟩, ?_⟩
    obtain ⟨e1, e2, e3, e4⟩ := erase_present_spec hash extract s (extract v) hwf hc
    have hcf : contains_key extract (erase hash extract s (extract v)).1 (extract v)
        = false := (contains_key_false extract _ _).mpr e4
    exact find_spec_absent hash extract _ (extract v) hcf
  | false =>
    obtain ⟨r, p, hins, hwfr, hsize, hkeys, hbcr⟩ :=
      insert_new_spec hash extract s v hwf hbound hc
    rw [hins]
    have habs : key_count extract s (extract v) = 0 :=
      (contains_key_false extract s (extract v)).mp hc
    have hkr : key_count extract r (extract v) = 1 := by
      have := hkeys (extract v)
      rw [if_pos rfl, habs] at this
      omega
    have hcr : contains_key extract r (extract v) = true :=
      (contains_key_iff extract r (extract v)).mpr (by omega)
    obtain ⟨f1, f2⟩ := find_spec_present hash extract r (extract v) hwfr hcr
    refine ⟨⟨f1, f2⟩, ?_⟩
    obtain ⟨e1, e2, e3, e4⟩ := erase_present_spec hash extract r (extract v) hwfr hcr
    have hcf : contains_key extract (erase hash extract r (extract v)).1 (extract v)
        = false := (contains_key_false extract _ _).mpr e4
    exact find_spec_absent hash extract _ (extract v) hcf

theorem C3_witness :
    checkWF id id s16 = true ∧ s16.bucket_count ≤ 2 ^ 62 ∧
    ((find id id (insert id id s16 5).1 5 < (insert id id s16 5).1.bucket_count ∧
      (∃ w, slot (insert id id s16 5).1 (find id id (insert id id s16 5).1 5) = some w ∧
        id w = 5)) ∧
    find id id (erase id id (insert id id s16 5).1 5).1 5
      = (erase id id (insert id id s16 5).1 5).1.bucket_count) :=
  ⟨by decide, by decide,
    C3_insert_find_erase_roundtrip Nat Nat id id s16 5
      (checkWF_sound id id s16 (by decide)) (by decide)⟩

/-- C4 (amended): `erase(key)` returns 1 when the key is present and 0 when
absent; an absent-key erase never changes `size` or the live entries, and
leaves the container entirely unchanged whenever `size ≥ min_size` or
`size ≤ 16` on entry. (As stated the claim is false: when
`size < min_size` and `size > 16` hold on entry, the shrink check at the
end of `erase` still triggers a rehash on the miss path, changing the
capacity — see the counterexample.) -/
theorem C4_erase_return_and_miss_frame (V K : Type) (hash : K → Nat)
    (extract : V → K) [DecidableEq K] (s : kernel V) (k : K)
    (hwf : WF hash extract s) :
    (contains_key extract s k = true → (erase hash extract s k).2 = 1) ∧
    (contains_key extract s k = false →
      (erase hash extract s k).2 = 0 ∧
      (erase hash extract s k).1.size = s.size ∧
      (∀ k', key_count extract (erase hash extract s k).1 k'
          = key_count extract s k') ∧
      (s.min_size ≤ s.size ∨ s.size ≤ 16 → erase hash extract s k = (s, 0))) := by
  constructor
  · intro hc
    exact (erase_present_spec hash extract s k hwf hc).1
  · intro hc
    obtain ⟨e1, e2, e3, e4, e5⟩ := erase_absent_spec hash extract s k hwf hc
    refine ⟨e1, e3, e4, ?_⟩
    intro h
    have := e5 h
    rw [Prod.ext_iff]
    exact ⟨this, e1⟩

theorem C4_witness :
    checkWF id id s16 = true ∧ contains_key id s16 3 = false ∧
    (erase id id s16 3).2 = 0 ∧ (erase id id s16 3).1.size = s16.size ∧
    erase id id s16 3 = (s16, 0) := by
  have h := C4_erase_return_and_miss_frame Nat Nat id id s16 3
    (checkWF_sound id id s16 (by decide))
  have h2 := h.2 (by decide)
  exact ⟨by decide, by decide, h2.1, h2.2.1, h2.2.2.2 (by decide)⟩

/-- C4 counterexample: `s_c4` is a reachable 64-slot table with 17 live
entries, below its low-water mark 19 while `size > 16`. Erasing the absent
key 40 returns 0 yet changes the capacity from 64 to 32: the container is
not left unchanged, contradicting the claim as stated. -/
theorem C4_counterexample :
    contains_key id s_c4 40 = false ∧ s_c4.bucket_count = 64 ∧
    s_c4.size = 17 ∧ s_c4.min_size = 19 ∧
    (erase id id s_c4 40).2 = 0 ∧
    (erase id id s_c4 40).1.bucket_count = 32 := by
  decide

/-- C5: the intended contract of `count` (the source function is ill-formed
— see the modelled definition): 1 when the key is present, 0 otherwise;
the model, like the source expression it replaces, only reads the state. -/
theorem C5_count_contract (V K : Type) (hash : K → Nat) (extract : V → K)
    [DecidableEq K] (s : kernel V) (k : K) (hwf : WF hash extract s) :
    count hash extract s k = (if contains_key extract s k = true then 1 else 0) := by
  cases hc : contains_key extract s k with
  | true =>
    obtain ⟨j, w, hscan, _, _⟩ := find_present hash extract s k hwf hc
    unfold count
    rw [hscan]
    rfl
  | false =>
    have hscan : scan extract s.bucket_count s k (index_from_key hash s k) = none :=
      scan_absent extract s k (absent_no_slot extract s k hc) s.bucket_count _
    unfold count
    rw [hscan]
    rfl

theorem C5_witness :
    checkWF id id s_two = true ∧
    count id id s_two 1 = (if contains_key id s_two 1 = true then 1 else 0) :=
  ⟨by decide, C5_count_contract Nat Nat id id s_two 1
    (checkWF_sound id id s_two (by decide))⟩

/-- C6: after every insert on a well-formed table (below the 64-bit
overflow regime) `size ≤ max_size` holds; and when the insert observes
`size == max_size` with a fresh key, it first doubles the bucket count via
`rehash(bucket_count*2)` and only then places the entry. -/
theorem C6_insert_respects_max_load (V K : Type) (hash : K → Nat)
    (extract : V → K) [DecidableEq K] (s : kernel V) (v : V)
    (hwf : WF hash extract s) (hbound : s.bucket_count ≤ 2 ^ 62) :
    (insert hash extract s v).1.size ≤ (insert hash extract s v).1.max_size ∧
    (s.size = s.max_size → contains_key extract s (extract v) = false →
      (insert hash extract s v).1.bucket_count = 2 * s.bucket_count) := by
  cases hc : contains_key extract s (extract v) with
  | true =>
    obtain ⟨jv, w, hins, _, _, _⟩ := insert_found_spec hash extract s v hwf hc
    rw [hins]
    exact ⟨hwf.size_le, fun _ h => Bool.noConfusion h⟩
  | false =>
    obtain ⟨r, p, hins, hwfr, _, _, hbcr⟩ :=
      insert_new_spec hash extract s v hwf hbound hc
    rw [hins]
    exact ⟨hwfr.size_le, fun hmax _ => by rw [hbcr, if_pos hmax]⟩

theorem C6_witness :
    checkWF id id s16 = true ∧ s16.bucket_count ≤ 2 ^ 62 ∧
    ((insert id id s16 5).1.size ≤ (insert id id s16 5).1.max_size ∧
    (s16.size = s16.max_size → contains_key id s16 5 = false →
      (insert id id s16 5).1.bucket_count = 2 * s16.bucket_count)) :=
  ⟨by decide, by decide,
    C6_insert_respects_max_load Nat Nat id id s16 5
      (checkWF_sound id id s16 (by decide)) (by decide)⟩

/-- C7: after an insert on a well-formed table (below the 64-bit overflow
regime) no two live entries have equal key views; inserting an entry whose
key is already present leaves the container untouched and returns the
position of the existing equal-key entry together with the "not inserted"
flag. -/
theorem C7_key_uniqueness (V K : Type) (hash : K → Nat)
    (extract : V → K) [DecidableEq K] (s : kernel V) (v : V)
    (hwf : WF hash extract s) (hbound : s.bucket_count ≤ 2 ^ 62) :
    (∀ i j vi vj, slot (insert hash extract s v).1 i = some vi →
      slot (insert hash extract s v).1 j = some vj →
      extract vi = extract vj → i = j) ∧
    (contains_key extract s (extract v) = true →
      (insert hash extract s v).1 = s ∧
      (insert hash extract s v).2.2 = false ∧
      (insert hash extract s v).1.size = s.size ∧
      ∃ w, slot s (insert hash extract s v).2.1 = some w ∧
        extract w = extract v) := by
  cases hc : contains_key extract s (extract v) with
  | true =>
    obtain ⟨jv, w, hins, hw, hk, _⟩ := insert_found_spec hash extract s v hwf hc
    rw [hins]
    exact ⟨uniq_pairs extract s hwf.uniq, fun _ => ⟨rfl, rfl, rfl, w, hw, hk⟩⟩
  | false =>
    obtain ⟨r, p, hins, hwfr, _, _, _⟩ :=
      insert_new_spec hash extract s v hwf hbound hc
    rw [hins]
    exact ⟨uniq_pairs extract r hwfr.uniq, fun h => Bool.noConfusion h⟩

theorem C7_witness :
    checkWF id id s_two = true ∧ s_two.bucket_count ≤ 2 ^ 62 ∧
    ((∀ i j vi vj, slot (insert id id s_two 1).1 i = some vi →
      slot (insert id id s_two 1).1 j = some vj → id vi = id vj → i = j) ∧
    (contains_key id s_two 1 = true →
      (insert id id s_two 1).1 = s_two ∧
      (insert id id s_two 1).2.2 = false ∧
      (insert id id s_two 1).1.size = s_two.size ∧
      ∃ w, slot s_two (insert id id s_two 1).2.1 = some w ∧ id w = 1)) :=
  ⟨by decide, by decide,
    C7_key_uniqueness Nat Nat id id s_two 1
      (checkWF_sound id id s_two (by decide)) (by decide)⟩

/-- C8: the claim says `clear` destroys an entry only in cells whose
occupancy flag is true and leaves a valid empty container with its
capacity still addressable. The code contradicts it on the
default-constructed table: it runs the entry destructor on all 16 cells —
including cell 0, which is unoccupied — and then empties the bucket vector
while `bucket_count_` stays 16, so no slot remains addressable. -/
theorem C8_clear_destroys_unoccupied :
    (slot (init Nat 16) 0).isSome = false ∧
    0 ∈ clear_destroyed (init Nat 16) ∧
    (clear (init Nat 16)).bucket_count = 16 ∧
    (clear (init Nat 16)).buckets.length = 0 ∧
    (clear (init Nat 16)).size = 0 := by
  decide

/-- C9 (amended): for every requested bucket count `1 ≤ n ≤ 2^63`,
construction sets the capacity to `upper_power_of_two n`, which is the
least power of two at least `n` (hence at least 1). (As stated the claim
is false at `n = 0`: the 64-bit decrement wraps, the smeared value is all
ones, and the increment wraps back to 0 — see the counterexample.) -/
theorem C9_capacity_least_power_of_two (V : Type) (n : Nat)
    (h1 : 1 ≤ n) (h2 : n ≤ 2 ^ 63) :
    (init V n).bucket_count = upper_power_of_two n ∧
    n ≤ upper_power_of_two n ∧
    1 ≤ upper_power_of_two n ∧
    (∃ k, upper_power_of_two n = 2 ^ k) ∧
    (∀ m k, m = 2 ^ k → n ≤ m → upper_power_of_two n ≤ m) := by
  obtain ⟨heq, hle, hmin⟩ := upper_power_of_two_spec n h1 h2
  refine ⟨rfl, by omega, by omega, ⟨(n - 1).size, heq⟩, ?_⟩
  intro m k hm hnm
  rw [heq, hm]
  exact Nat.pow_le_pow_right (by omega) (hmin k (by omega))

theorem C9_witness :
    1 ≤ 5 ∧ 5 ≤ 2 ^ 63 ∧
    ((init Nat 5).bucket_count = upper_power_of_two 5 ∧
    5 ≤ upper_power_of_two 5 ∧
    1 ≤ upper_power_of_two 5 ∧
    (∃ k, upper_power_of_two 5 = 2 ^ k) ∧
    (∀ m k, m = 2 ^ k → 5 ≤ m → upper_power_of_two 5 ≤ m)) :=
  ⟨by decide, by decide,
    C9_capacity_least_power_of_two Nat 5 (by decide) (by decide)⟩

/-- C9 counterexample: with a requested bucket count of 0 the computed
capacity is 0, not the claimed minimum of 1. -/
theorem C9_counterexample_zero :
    upper_power_of_two 0 = 0 ∧ (init Nat 0).bucket_count = 0 ∧
    (init Nat 0).buckets.length = 0 := by
  decide

/-- C10: the indexing accessor performs no insertion and no mutation — the
state component of its embedding is returned unchanged for every key — and
on an absent key the cell it reads is the one at index `bucket_count`, one
past the last slot. -/
theorem C10_op_index_reads_only (V K : Type) (hash : K → Nat)
    (extract : V → K) [DecidableEq K] (s : kernel V) (k : K) :
    (op_index hash extract s k).1 = s ∧
    (contains_key extract s k = false →
      (op_index hash extract s k).2 = s.bucket_count) :=
  ⟨rfl, fun hc => find_impl_absent hash extract s k (index_from_key hash s k) hc⟩

theorem C10_witness :
    (op_index id id s16 7).1 = s16 ∧ (op_index id id s16 7).2 = s16.bucket_count :=
  ⟨(C10_op_index_reads_only Nat Nat id id s16 7).1,
    (C10_op_index_reads_only Nat Nat id id s16 7).2 (by decide)⟩

end Linear
